import Mathlib

/-!
Verification of the R-tree spatial-index core of the `complex-data-management`
repository: bulk loading (`r_tree_bulk_loading.cpp`), the textual
serializer/deserializer (`Node.h`, `build_tree_from_file`), range queries
(`range_queries` main) and best-first k-nearest-neighbor search
(`k_nearest_neighbors.cpp`).

Modelling conventions:
* C++ `double` coordinates are modelled as `ℚ` (exact arithmetic); the final
  `std::sqrt` of `min_dist` is modelled by working with squared distances,
  which is faithful for every comparison and ordering statement because the
  real square root is strictly monotone; theorems about the Euclidean
  distance itself apply `Real.sqrt` to the squared values.
* `std::shared_ptr<Node>` trees are modelled by the inductive type `RTree`
  (the in-memory structure is a tree: every node has exactly one parent).
* `size_t` arithmetic is modelled exactly, including wrap-around modulo
  `2 ^ 64` where the source mixes signed and unsigned operands.
* Out-of-bounds accesses and invalid-iterator dereferences (undefined
  behavior in the source) are modelled by returning `none`.
* `std::sort` gives no stability guarantee, so `sortEntriesByZValue` is
  modelled by the relation `IsCppSortOutput`: any permutation of the input
  that is sorted with respect to the comparator is a possible output.
-/

namespace RV

/-- The `MBR` class of `Node.h`: an axis-aligned rectangle with
`x_low, y_low, x_high, y_high` coordinates. -/
structure MBR where
  x_low : ℚ
  y_low : ℚ
  x_high : ℚ
  y_high : ℚ
deriving DecidableEq, Repr

/-- `mbr_intersects` from the query programs: closed-interval overlap test on
both axes (touching edges intersect). -/
def mbr_intersects (a b : MBR) : Bool :=
  if a.x_high < b.x_low ∨ a.x_low > b.x_high then false
  else if a.y_high < b.y_low ∨ a.y_low > b.y_high then false
  else true

/-- `update_parent_mbr` from `Node.h`: expand `parent` to the smallest
rectangle containing both arguments. -/
def update_parent_mbr (parent child : MBR) : MBR :=
  { x_low := min parent.x_low child.x_low
    y_low := min parent.y_low child.y_low
    x_high := max parent.x_high child.x_high
    y_high := max parent.y_high child.y_high }

/-- The squared value of `min_dist` from `k_nearest_neighbors.cpp`: the
per-axis clamped distances `dx`, `dy` exactly as in the source, combined as
`dx*dx + dy*dy` (the source returns `sqrt` of this value; all comparisons
made on it are faithfully mirrored on the squares). -/
def minDistSq (m : MBR) (qx qy : ℚ) : ℚ :=
  let dx : ℚ := if qx < m.x_low then m.x_low - qx
    else if qx > m.x_high then qx - m.x_high else 0
  let dy : ℚ := if qy < m.y_low then m.y_low - qy
    else if qy > m.y_high then qy - m.y_high else 0
  dx * dx + dy * dy

/-- Squared Euclidean distance between two points. -/
def distSq (qx qy px py : ℚ) : ℚ :=
  (qx - px) * (qx - px) + (qy - py) * (qy - py)

/-- Point membership in a closed rectangle. -/
def inMBR (m : MBR) (px py : ℚ) : Prop :=
  m.x_low ≤ px ∧ px ≤ m.x_high ∧ m.y_low ≤ py ∧ py ≤ m.y_high

/-- `outer` contains `inner` as rectangles. -/
def containsMBR (outer inner : MBR) : Prop :=
  outer.x_low ≤ inner.x_low ∧ outer.y_low ≤ inner.y_low ∧
  inner.x_high ≤ outer.x_high ∧ inner.y_high ≤ outer.y_high

instance (o i : MBR) : Decidable (containsMBR o i) := by
  unfold containsMBR; infer_instance

instance (m : MBR) (px py : ℚ) : Decidable (inMBR m px py) := by
  unfold inMBR; infer_instance

mutual
/-- The in-memory node hierarchy of `Node.h`: a `Node` wrapping only id and
MBR (a leaf), or an `InternalNode` with id, MBR, the `children_are_leafs`
flag and an ordered child sequence. -/
inductive RTree where
  | leaf (node_id : Int) (mbr : MBR)
  | internal (node_id : Int) (mbr : MBR) (children_are_leafs : Bool)
      (children : RTreeList)
deriving Repr
/-- The child sequence `std::vector<std::shared_ptr<Node>>`. -/
inductive RTreeList where
  | nil
  | cons (hd : RTree) (tl : RTreeList)
deriving Repr
end

namespace RTreeList

/-- View a child sequence as a `List`. -/
def toList : RTreeList → List RTree
  | .nil => []
  | .cons h t => h :: t.toList

/-- Build a child sequence from a `List`. -/
def ofList : List RTree → RTreeList
  | [] => .nil
  | h :: t => .cons h (ofList t)

theorem toList_ofList (l : List RTree) : (ofList l).toList = l := by
  induction l with
  | nil => rfl
  | cons h t ih => simp [ofList, toList, ih]

end RTreeList

/-- The `node_id` field of a node. -/
def rid : RTree → Int
  | .leaf i _ => i
  | .internal i _ _ _ => i

/-- The `mbr` field of a node. -/
def rmbr : RTree → MBR
  | .leaf _ m => m
  | .internal _ m _ _ => m

mutual
/-- All `(node_id, mbr)` pairs of the leaf objects of a tree, in traversal
order. -/
def leaves : RTree → List (Int × MBR)
  | .leaf i m => [(i, m)]
  | .internal _ _ _ cs => leavesL cs
/-- `leaves` over a child sequence. -/
def leavesL : RTreeList → List (Int × MBR)
  | .nil => []
  | .cons h t => leaves h ++ leavesL t
end

mutual
/-- Number of node objects in a tree (used as loop fuel for the k-NN
best-first search, whose frontier shrinks by one node object per
iteration). -/
def rsize : RTree → Nat
  | .leaf _ _ => 1
  | .internal _ _ _ cs => 1 + rsizeL cs
/-- `rsize` over a child sequence. -/
def rsizeL : RTreeList → Nat
  | .nil => 0
  | .cons h t => rsize h + rsizeL t
end

mutual
theorem rsize_pos : ∀ t : RTree, 0 < rsize t
  | .leaf _ _ => by simp [rsize]
  | .internal _ _ _ _ => by simp [rsize]
end

/-- The R-tree invariant assumed by both query algorithms: every internal
node's MBR contains each of its children's MBRs (recursively). -/
inductive ContainsInv : RTree → Prop
  | leaf (i : Int) (m : MBR) : ContainsInv (.leaf i m)
  | internal (i : Int) (m : MBR) (b : Bool) (cs : RTreeList)
      (hc : ∀ c ∈ cs.toList, containsMBR m (rmbr c))
      (hr : ∀ c ∈ cs.toList, ContainsInv c) :
      ContainsInv (.internal i m b cs)

/- ------------------------------------------------------------------ -/
/- C9: correctness of min_dist                                         -/
/- ------------------------------------------------------------------ -/

theorem minDistSq_nonneg (m : MBR) (qx qy : ℚ) : 0 ≤ minDistSq m qx qy := by
  unfold minDistSq
  dsimp only
  split_ifs <;> nlinarith

/-- The closest point of the rectangle: per-axis clamping of the query. -/
def clampPt (m : MBR) (qx qy : ℚ) : ℚ × ℚ :=
  (max m.x_low (min qx m.x_high), max m.y_low (min qy m.y_high))

theorem clampPt_mem (m : MBR) (qx qy : ℚ)
    (hx : m.x_low ≤ m.x_high) (hy : m.y_low ≤ m.y_high) :
    inMBR m (clampPt m qx qy).1 (clampPt m qx qy).2 := by
  unfold inMBR clampPt
  constructor
  · exact le_max_left _ _
  refine ⟨?_, le_max_left _ _, ?_⟩
  · exact max_le hx (min_le_right _ _)
  · exact max_le hy (min_le_right _ _)

/-- One axis of `min_dist`: the clamped distance, as computed in the source
(`dx` and `dy`). -/
def axisDist (lo hi q : ℚ) : ℚ :=
  if q < lo then lo - q else if q > hi then q - hi else 0

theorem axisDist_sq_eq (lo hi q : ℚ) (h : lo ≤ hi) :
    (q - max lo (min q hi)) * (q - max lo (min q hi)) =
      axisDist lo hi q * axisDist lo hi q := by
  unfold axisDist
  split_ifs with ha hb
  · rw [min_eq_left (le_of_lt (lt_of_lt_of_le ha h)), max_eq_left (le_of_lt ha)]
    ring
  · rw [min_eq_right (le_of_lt hb), max_eq_right h]
  · rw [min_eq_left (not_lt.mp hb), max_eq_right (not_lt.mp ha)]
    ring

theorem axisDist_sq_le (lo hi q p : ℚ) (h1 : lo ≤ p) (h2 : p ≤ hi) :
    axisDist lo hi q * axisDist lo hi q ≤ (q - p) * (q - p) := by
  unfold axisDist
  split_ifs with ha hb <;> nlinarith

theorem minDistSq_eq_axis (m : MBR) (qx qy : ℚ) :
    minDistSq m qx qy =
      axisDist m.x_low m.x_high qx * axisDist m.x_low m.x_high qx +
      axisDist m.y_low m.y_high qy * axisDist m.y_low m.y_high qy := rfl

theorem minDistSq_eq_clamp (m : MBR) (qx qy : ℚ)
    (hx : m.x_low ≤ m.x_high) (hy : m.y_low ≤ m.y_high) :
    distSq qx qy (clampPt m qx qy).1 (clampPt m qx qy).2 = minDistSq m qx qy := by
  unfold distSq clampPt
  rw [minDistSq_eq_axis]
  dsimp only
  rw [axisDist_sq_eq _ _ _ hx, axisDist_sq_eq _ _ _ hy]

theorem minDistSq_le_distSq (m : MBR) (qx qy px py : ℚ)
    (hp : inMBR m px py) : minDistSq m qx qy ≤ distSq qx qy px py := by
  obtain ⟨h1, h2, h3, h4⟩ := hp
  rw [minDistSq_eq_axis]
  unfold distSq
  have := axisDist_sq_le m.x_low m.x_high qx px h1 h2
  have := axisDist_sq_le m.y_low m.y_high qy py h3 h4
  linarith

/-- **C9.** For every MBR `m` with `x_low ≤ x_high` and `y_low ≤ y_high` and
every query point, `min_dist` equals the Euclidean distance from the query
point to the closest point of `m` (the per-axis clamped point, distance `0`
inside), and is an admissible lower bound: it never exceeds the Euclidean
distance from the query point to any point contained in `m`.  Distances are
represented by their squares (`minDistSq`, `distSq`, modelling the value the
source takes `std::sqrt` of); the `Real.sqrt` conjuncts state the claim for
the Euclidean distances themselves. -/
theorem min_dist_correct (m : MBR) (qx qy : ℚ)
    (hx : m.x_low ≤ m.x_high) (hy : m.y_low ≤ m.y_high) :
    (∃ px py, inMBR m px py ∧ distSq qx qy px py = minDistSq m qx qy ∧
      Real.sqrt ((minDistSq m qx qy : ℚ) : ℝ) =
        Real.sqrt (((distSq qx qy px py : ℚ) : ℝ))) ∧
    (∀ px py, inMBR m px py → minDistSq m qx qy ≤ distSq qx qy px py ∧
      Real.sqrt ((minDistSq m qx qy : ℚ) : ℝ) ≤
        Real.sqrt (((distSq qx qy px py : ℚ) : ℝ))) := by
  constructor
  · refine ⟨(clampPt m qx qy).1, (clampPt m qx qy).2,
      clampPt_mem m qx qy hx hy, minDistSq_eq_clamp m qx qy hx hy, ?_⟩
    rw [minDistSq_eq_clamp m qx qy hx hy]
  · intro px py hp
    have h := minDistSq_le_distSq m qx qy px py hp
    refine ⟨h, Real.sqrt_le_sqrt ?_⟩
    exact_mod_cast h

/-- Witness for C9 at the rectangle `[0,2] × [0,2]` and query point
`(3, 1)`. -/
theorem min_dist_correct_witness :
    (∃ px py, inMBR ⟨0, 0, 2, 2⟩ px py ∧ distSq 3 1 px py = minDistSq ⟨0, 0, 2, 2⟩ 3 1 ∧
      Real.sqrt ((minDistSq ⟨0, 0, 2, 2⟩ 3 1 : ℚ) : ℝ) =
        Real.sqrt (((distSq 3 1 px py : ℚ) : ℝ))) ∧
    (∀ px py, inMBR ⟨0, 0, 2, 2⟩ px py → minDistSq ⟨0, 0, 2, 2⟩ 3 1 ≤ distSq 3 1 px py ∧
      Real.sqrt ((minDistSq ⟨0, 0, 2, 2⟩ 3 1 : ℚ) : ℝ) ≤
        Real.sqrt (((distSq 3 1 px py : ℚ) : ℝ))) :=
  min_dist_correct ⟨0, 0, 2, 2⟩ 3 1 (by norm_num) (by norm_num)

/- ------------------------------------------------------------------ -/
/- C2: range query                                                     -/
/- ------------------------------------------------------------------ -/

mutual
/-- `range_query` from the range-query program: for each child of the node,
skip it when its MBR does not intersect the query MBR; recurse into internal
children; emit the id of leaf children.  The source never invokes it on a
leaf object (the deserialized root is an `InternalNode`). -/
def range_query : RTree → MBR → List Int
  | .leaf _ _, _ => []
  | .internal _ _ _ cs, q => range_queryL cs q
/-- The body of the child loop of `range_query` for one surviving child:
a leaf child's id is emitted, an internal child is recursed into (the
`dynamic_pointer_cast` branch of the source). -/
def range_queryChild : RTree → MBR → List Int
  | .leaf i _, _ => [i]
  | .internal _ _ _ cs, q => range_queryL cs q
/-- The child loop of `range_query`. -/
def range_queryL : RTreeList → MBR → List Int
  | .nil, _ => []
  | .cons c t, q =>
    (if mbr_intersects (rmbr c) q then range_queryChild c q else []) ++
      range_queryL t q
end

/-- The null-root guard of `range_query` (`if (node == nullptr) return`). -/
def range_query_root : Option RTree → MBR → List Int
  | none, _ => []
  | some t, q => range_query t q

theorem mbr_intersects_iff (a b : MBR) :
    mbr_intersects a b = true ↔
      b.x_low ≤ a.x_high ∧ a.x_low ≤ b.x_high ∧
      b.y_low ≤ a.y_high ∧ a.y_low ≤ b.y_high := by
  unfold mbr_intersects
  split_ifs with h1 h2
  · simp only [false_iff]
    rintro ⟨p1, p2, p3, p4⟩
    rcases h1 with h | h <;> linarith
  · simp only [false_iff]
    rintro ⟨p1, p2, p3, p4⟩
    rcases h2 with h | h <;> linarith
  · simp only [true_iff]
    push_neg at h1 h2
    exact ⟨h1.1, h1.2, h2.1, h2.2⟩

theorem containsMBR_trans {a b c : MBR} (h1 : containsMBR a b)
    (h2 : containsMBR b c) : containsMBR a c := by
  obtain ⟨x1, x2, x3, x4⟩ := h1
  obtain ⟨y1, y2, y3, y4⟩ := h2
  exact ⟨le_trans x1 y1, le_trans x2 y2, le_trans y3 x3, le_trans y4 x4⟩

theorem containsMBR_refl (a : MBR) : containsMBR a a :=
  ⟨le_refl _, le_refl _, le_refl _, le_refl _⟩

theorem intersects_of_contains {a b q : MBR} (h : containsMBR a b)
    (hi : mbr_intersects b q = true) : mbr_intersects a q = true := by
  rw [mbr_intersects_iff] at hi ⊢
  obtain ⟨c1, c2, c3, c4⟩ := h
  obtain ⟨i1, i2, i3, i4⟩ := hi
  exact ⟨le_trans i1 c3, le_trans c1 i2, le_trans i3 c4, le_trans c2 i4⟩

/-- Induction principle for child sequences alone (the mutual recursor of
`RTree`/`RTreeList` is inconvenient for the `induction` tactic). -/
theorem rtreeListInduction (motive : RTreeList → Prop) (hnil : motive .nil)
    (hcons : ∀ c t, motive t → motive (.cons c t)) : ∀ cs, motive cs
  | .nil => hnil
  | .cons c t => hcons c t (rtreeListInduction motive hnil hcons t)

theorem mem_leavesL {l : Int × MBR} {cs : RTreeList} :
    l ∈ leavesL cs ↔ ∃ c ∈ cs.toList, l ∈ leaves c := by
  induction cs using rtreeListInduction with
  | hnil => simp [leavesL, RTreeList.toList]
  | hcons c t ih => simp [leavesL, RTreeList.toList, ih]

/-- Every leaf below a node satisfying the containment invariant has its MBR
contained in the node's MBR. -/
theorem leaf_mbr_contained {t : RTree} (h : ContainsInv t) :
    ∀ l ∈ leaves t, containsMBR (rmbr t) l.2 := by
  induction h with
  | leaf i m =>
    intro l hl
    simp only [leaves, List.mem_singleton] at hl
    subst hl
    exact containsMBR_refl m
  | internal i m b cs hc hr ih =>
    intro l hl
    simp only [leaves] at hl
    rw [mem_leavesL] at hl
    obtain ⟨c, hcmem, hlc⟩ := hl
    exact containsMBR_trans (hc c hcmem) (ih c hcmem l hlc)

theorem range_queryL_eq (q : MBR) : ∀ cs : RTreeList,
    (∀ c ∈ cs.toList, ContainsInv c) →
    (∀ c ∈ cs.toList, mbr_intersects (rmbr c) q = true →
      range_queryChild c q =
        ((leaves c).filter (fun l => mbr_intersects l.2 q)).map Prod.fst) →
    range_queryL cs q =
      ((leavesL cs).filter (fun l => mbr_intersects l.2 q)).map Prod.fst := by
  intro cs
  induction cs using rtreeListInduction with
  | hnil => intro _ _; simp [range_queryL, leavesL]
  | hcons c t ih =>
    intro h1 h2
    have hct : ∀ c' ∈ t.toList, ContainsInv c' := fun c' hm =>
      h1 c' (by simp [RTreeList.toList, hm])
    have hht : ∀ c' ∈ t.toList, mbr_intersects (rmbr c') q = true →
        range_queryChild c' q =
          ((leaves c').filter (fun l => mbr_intersects l.2 q)).map Prod.fst :=
      fun c' hm => h2 c' (by simp [RTreeList.toList, hm])
    have hcmem : c ∈ (RTreeList.cons c t).toList := by simp [RTreeList.toList]
    have htail := ih hct hht
    simp only [range_queryL, leavesL, List.filter_append, List.map_append]
    rw [htail]
    congr 1
    by_cases hint : mbr_intersects (rmbr c) q = true
    · rw [if_pos hint]
      exact h2 c hcmem hint
    · rw [if_neg (by simpa using hint)]
      have hempty :
          (leaves c).filter (fun l => mbr_intersects l.2 q) = [] := by
        rw [List.filter_eq_nil_iff]
        intro l hl
        intro habs
        exact hint (intersects_of_contains
          (leaf_mbr_contained (h1 c hcmem) l hl) habs)
      rw [hempty]
      rfl

/-- On a tree satisfying the containment invariant, one surviving child
contributes exactly its intersecting leaves. -/
theorem range_queryChild_eq (q : MBR) {c : RTree} (h : ContainsInv c) :
    mbr_intersects (rmbr c) q = true →
      range_queryChild c q =
        ((leaves c).filter (fun l => mbr_intersects l.2 q)).map Prod.fst := by
  induction h with
  | leaf i m =>
    intro hint
    simp only [rmbr] at hint
    simp [range_queryChild, leaves, hint]
  | internal i m b cs hc hr ih =>
    intro _
    simp only [range_queryChild, leaves]
    exact range_queryL_eq q cs hr ih

/-- `range_query` on a tree satisfying the containment invariant returns
exactly the ids of the leaves whose MBR intersects the query MBR, in
traversal order. -/
theorem range_query_eq {i : Int} {m : MBR} {b : Bool} {cs : RTreeList}
    (h : ContainsInv (.internal i m b cs)) (q : MBR) :
    range_query (.internal i m b cs) q =
      ((leaves (RTree.internal i m b cs)).filter
        (fun l => mbr_intersects l.2 q)).map Prod.fst := by
  cases h with
  | internal _ _ _ _ hc hr =>
    simp only [range_query, leaves]
    exact range_queryL_eq q cs hr
      (fun c hm => range_queryChild_eq q (hr c hm))

/-- **C2.** For every tree whose internal nodes' MBRs contain all of their
children's MBRs and every query rectangle, `range_query` returns exactly the
ids of the leaves whose MBR intersects the query rectangle under the
closed-interval intersection rule (`mbr_intersects`), each intersecting leaf
contributing exactly once (so each id exactly once as soon as the leaf ids
are distinct); a null root yields no results. -/
theorem range_query_correct (i : Int) (m : MBR) (b : Bool) (cs : RTreeList)
    (q : MBR) (hinv : ContainsInv (.internal i m b cs)) :
    range_query_root none q = [] ∧
    range_query (.internal i m b cs) q =
      ((leaves (.internal i m b cs)).filter
        (fun l => mbr_intersects l.2 q)).map Prod.fst ∧
    (((leaves (.internal i m b cs)).map Prod.fst).Nodup →
      (range_query (.internal i m b cs) q).Nodup) := by
  have hmain := range_query_eq hinv q
  refine ⟨rfl, hmain, fun hnd => ?_⟩
  rw [hmain]
  have hsub : List.Sublist
      (((leaves (RTree.internal i m b cs)).filter
        (fun l => mbr_intersects l.2 q)).map Prod.fst)
      ((leaves (RTree.internal i m b cs)).map Prod.fst) :=
    List.Sublist.map _ (List.filter_sublist _)
  exact hnd.sublist hsub

/-- The three-entry scenario of the spec:
entries `1:[0,0,1,1]`, `2:[5,5,6,6]`, `3:[2,2,3,3]` under one root. -/
def demoTree : RTree :=
  .internal 10 ⟨0, 0, 6, 6⟩ true
    (.cons (.leaf 1 ⟨0, 0, 1, 1⟩) (.cons (.leaf 2 ⟨5, 5, 6, 6⟩)
      (.cons (.leaf 3 ⟨2, 2, 3, 3⟩) .nil)))

theorem demoTree_inv : ContainsInv demoTree := by
  show ContainsInv (.internal 10 ⟨0, 0, 6, 6⟩ true
    (.cons (.leaf 1 ⟨0, 0, 1, 1⟩) (.cons (.leaf 2 ⟨5, 5, 6, 6⟩)
      (.cons (.leaf 3 ⟨2, 2, 3, 3⟩) .nil))))
  refine ContainsInv.internal _ _ _ _ ?_ ?_ <;> intro c hc <;>
    simp only [RTreeList.toList, List.mem_cons, List.not_mem_nil,
      or_false] at hc
  · rcases hc with rfl | rfl | rfl <;> exact (by decide)
  · rcases hc with rfl | rfl | rfl <;> exact ContainsInv.leaf _ _

/-- Witness for C2 on the spec's three-entry scenario with query rectangle
`[1,1, 4,4]`: under the closed-interval rule entries 1 and 3 intersect. -/
theorem range_query_correct_witness :
    (range_query_root none ⟨1, 1, 4, 4⟩ = [] ∧
     range_query demoTree ⟨1, 1, 4, 4⟩ =
       ((leaves demoTree).filter
         (fun l => mbr_intersects l.2 ⟨1, 1, 4, 4⟩)).map Prod.fst ∧
     (((leaves demoTree).map Prod.fst).Nodup →
       (range_query demoTree ⟨1, 1, 4, 4⟩).Nodup)) ∧
    range_query demoTree ⟨1, 1, 4, 4⟩ = [1, 3] :=
  ⟨range_query_correct 10 ⟨0, 0, 6, 6⟩ true _ ⟨1, 1, 4, 4⟩ demoTree_inv, rfl⟩

/- ------------------------------------------------------------------ -/
/- Bulk loader (r_tree_bulk_loading.cpp)                               -/
/- ------------------------------------------------------------------ -/

/-- The `Entry` class of `Node.h`: id, MBR and the locality key `z_value`
(a `std::string`, modelled as its character sequence). -/
structure Entry where
  id : Int
  mbr : MBR
  z_value : List Char
deriving DecidableEq, Repr

/-- Lexicographic comparison of character sequences: the semantics of
`std::string operator<` used by the comparator in `sortEntriesByZValue`. -/
def strLt : List Char → List Char → Bool
  | [], [] => false
  | [], _ :: _ => true
  | _ :: _, [] => false
  | a :: as, b :: bs => if a < b then true else if b < a then false else strLt as bs

/-- Adjacent-order relation left by `std::sort` with the comparator
`a.z_value < b.z_value`: the successor never compares below its
predecessor. -/
abbrev entryLe (a b : Entry) : Prop := strLt b.z_value a.z_value = false

/-- The contract of the `std::sort` call in `sortEntriesByZValue`: the
output is a permutation of the input that is sorted with respect to the
comparator `a.z_value < b.z_value`.  `std::sort` guarantees nothing more —
in particular no stability — so any such permutation is a possible
output. -/
def IsCppSortOutput (input output : List Entry) : Prop :=
  output.Perm input ∧ output.Chain' entryLe

/-- `build_leaf_nodes`: one leaf node per entry, in order. -/
def build_leaf_nodes (entries : List Entry) : List RTree :=
  entries.map (fun e => RTree.leaf e.id e.mbr)

/-- The incremental MBR computation of the loader: start from the first
child's MBR and `update_parent_mbr` with each further child (also the
semantics of `recompute_node_mbr`). -/
def childrenUnion (first : MBR) (rest : List RTree) : MBR :=
  rest.foldl (fun acc c => update_parent_mbr acc (rmbr c)) first

/-- An internal node as constructed by `create_upper_level`: id, the
incrementally computed MBR, the level flag, and the child group. -/
def mkInternal (nid : Int) (flag : Bool) (c0 : RTree) (rest : List RTree) :
    RTree :=
  .internal nid (childrenUnion (rmbr c0) rest) flag
    (RTreeList.ofList (c0 :: rest))

/-- `MAX_CHILDREN_PER_NODE` of `create_upper_level`. -/
def MAX_FANOUT : Nat := 20

/-- `MIN_CHILDREN_PER_NODE` of `create_upper_level`. -/
def MIN_FANOUT : Nat := 8

/-- `2^64`: the modulus of `size_t` arithmetic on the reference platform. -/
def SIZE_T_MOD : Nat := 2 ^ 64

/-- The first loop of `create_upper_level`: build `count` full internal
nodes of 20 children each, returning them, the leftover node list and the
updated id counter. -/
def makeFullNodes (flag : Bool) :
    Nat → List RTree → Int → (List RTree × List RTree × Int)
  | 0, nodes, nid => ([], nodes, nid)
  | f + 1, nodes, nid =>
    match nodes with
    | [] => ([], [], nid)
    | c0 :: restAll =>
      let g := restAll.take 19
      let rest := restAll.drop 19
      let node := mkInternal nid flag c0 g
      let step := makeFullNodes flag f rest (nid + 1)
      (node :: step.1, step.2.1, step.2.2)

/-- The borrowing loop of `create_upper_level`, iterated `count` times.
State: the donor's children in reverse (so `back()` is the head), the
recipient's MBR and the recipient's children.  Each iteration moves the
donor's last child to the front of the recipient, expands the recipient's
MBR with it, and recomputes the donor's MBR (`recompute_node_mbr`).
`none` models undefined behavior in the source: `children.back()` on an
empty vector, or `recompute_node_mbr` reading `children[0]` of an emptied
donor. -/
def borrowLoop :
    Nat → List RTree → MBR → List RTree →
      Option (List RTree × MBR × List RTree)
  | 0, donorRev, rm, rc => some (donorRev, rm, rc)
  | _ + 1, [], _, _ => none
  | n + 1, c :: drest, rm, rc =>
    if drest.isEmpty then none
    else borrowLoop n drest (update_parent_mbr rm (rmbr c)) (c :: rc)

/-- `create_upper_level`: pack the node sequence into full nodes of 20,
then a remainder node; if `MIN_CHILDREN_PER_NODE - remainder` — computed in
`size_t`, hence wrapping around `2^64` when the remainder exceeds 8 — is
positive and a full sibling exists, borrow that many children from the most
recently built full node.  `none` models undefined behavior reached in the
source. -/
def create_upper_level (nodes : List RTree) (nid : Int) :
    Option (List RTree × Int) :=
  let flag := nid == 0
  let full := makeFullNodes flag (nodes.length / MAX_FANOUT) nodes nid
  let fullNodes := full.1
  let remainder := full.2.1
  let nid1 := full.2.2
  let r := nodes.length % MAX_FANOUT
  if r = 0 then some (fullNodes, nid1)
  else
    match remainder with
    | [] => none
    | c0 :: rrest =>
      let recipMbr0 := childrenUnion (rmbr c0) rrest
      let needed : Nat :=
        (((MIN_FANOUT : Int) - (r : Int)) % (SIZE_T_MOD : Int)).toNat
      if 0 < needed ∧ fullNodes.isEmpty = false then
        match fullNodes.getLast? with
        | none => none
        | some donor =>
          match donor with
          | .leaf _ _ => none
          | .internal did _ dflag dcs =>
            match borrowLoop needed dcs.toList.reverse recipMbr0
                (c0 :: rrest) with
            | none => none
            | some (donorRev', recipMbr', recipCh') =>
              match donorRev'.reverse with
              | [] => none
              | d0 :: drest =>
                let donor' := RTree.internal did
                  (childrenUnion (rmbr d0) drest) dflag
                  (RTreeList.ofList (d0 :: drest))
                let recip := RTree.internal nid1 recipMbr' flag
                  (RTreeList.ofList recipCh')
                some (fullNodes.dropLast ++ [donor', recip], nid1 + 1)
      else
        some (fullNodes ++
          [RTree.internal nid1 recipMbr0 flag (RTreeList.ofList (c0 :: rrest))],
          nid1 + 1)

/-- A serialized tree line, already tokenized: the leading
`children_are_leafs` flag digit (`0` = leaves), the node id, and the
embedded `(child_id, child_MBR)` pairs; child MBRs go through the
formatting function `ρ` (the source fixes 6-decimal output). -/
structure Line where
  flag : Nat
  nid : Int
  kids : List (Int × MBR)
deriving Repr

/-- Coordinate-wise application of the formatting function. -/
def roundMBR (ρ : ℚ → ℚ) (m : MBR) : MBR :=
  ⟨ρ m.x_low, ρ m.y_low, ρ m.x_high, ρ m.y_high⟩

/-- `InternalNode::toString`: flag digit (`0` when children are leaves),
node id, then each child's id with a formatted copy of its MBR.  The loader
only ever serializes internal nodes. -/
def serializeLine (ρ : ℚ → ℚ) : RTree → Line
  | .leaf i _ => ⟨0, i, []⟩
  | .internal i _ b cs =>
    ⟨if b then 0 else 1, i,
      cs.toList.map (fun c => (rid c, roundMBR ρ (rmbr c)))⟩

/-- The `while (nodes.size() > 1)` loop of `build_tree`, also accumulating
the lines written to `Rtree.txt` (each freshly built level in order).  The
final single node is returned after the `dynamic_pointer_cast` to
`InternalNode`; on a lone leaf that cast yields null (`none`), and on an
empty node vector `nodes.front()` is undefined behavior (`none`).  `fuel`
bounds the number of levels; the caller passes the entry count, which
strictly dominates the level count. -/
def build_tree_loop (ρ : ℚ → ℚ) (fuel : Nat) (nodes : List RTree)
    (nid : Int) (acc : List Line) : Option (RTree × List Line) :=
  if nodes.length ≤ 1 then
    match nodes with
    | [RTree.internal i m b cs] => some (RTree.internal i m b cs, acc)
    | _ => none
  else
    match fuel with
    | 0 => none
    | fuel' + 1 =>
      match create_upper_level nodes nid with
      | none => none
      | some (next, nid') =>
        build_tree_loop ρ fuel' next nid' (acc ++ next.map (serializeLine ρ))

/-- `build_tree` applied to the leaf nodes of the given (already sorted)
entries: returns the root and the serialized lines of `Rtree.txt`. -/
def build_tree (ρ : ℚ → ℚ) (entries : List Entry) :
    Option (RTree × List Line) :=
  build_tree_loop ρ entries.length (build_leaf_nodes entries) 0 []

/- ------------------------------------------------------------------ -/
/- C3: the remainder-borrowing step                                    -/
/- ------------------------------------------------------------------ -/

/-- A level of 29 nodes (e.g. the leaf level of a 29-entry load):
`29 % 20 = 9`, so the final partial group already has at least
`MIN_FANOUT = 8` members and, per the claim, no reassignment should
happen. -/
def c3Input : List RTree :=
  (List.range 29).map (fun i => RTree.leaf (Int.ofNat i) ⟨0, 0, 1, 1⟩)

/-- **C3 (failing input).** The source computes
`needed_children = MIN_CHILDREN_PER_NODE - remaining_nodes` in `size_t`;
for a remainder of `9` this wraps to `2^64 - 1`, the guard
`needed_children > 0` is satisfied, and the borrowing loop — which the
claim says must not run at all, since the partial group has at least
`MIN_FANOUT` members — drains the donor's 20 children and dereferences
`children.back()` / `children[0]` of an empty vector: undefined behavior,
modelled as `none`.  So reassignment is not guarded by
`remainder < MIN_FANOUT`: the wrapped subtraction makes the guard true for
every remainder other than 8. -/
theorem create_upper_level_underflow :
    (c3Input.length = 29 ∧ 29 % MAX_FANOUT = 9 ∧ MIN_FANOUT ≤ 9 ∧
      (((MIN_FANOUT : Int) - (9 : Int)) % (SIZE_T_MOD : Int)).toNat =
        2 ^ 64 - 1) ∧
    create_upper_level c3Input 0 = none := by
  constructor
  · refine ⟨by simp [c3Input], by decide, by decide, by decide⟩
  · rfl

/- ------------------------------------------------------------------ -/
/- C7: the sort step                                                   -/
/- ------------------------------------------------------------------ -/

theorem strLt_irrefl : ∀ a : List Char, strLt a a = false
  | [] => rfl
  | c :: t => by simp [strLt, lt_irrefl, strLt_irrefl t]

theorem strLt_cons_iff (x y : Char) (xs ys : List Char) :
    strLt (x :: xs) (y :: ys) = true ↔
      x < y ∨ (x = y ∧ strLt xs ys = true) := by
  simp only [strLt]
  split_ifs with h1 h2
  · simp [h1]
  · constructor
    · intro h; cases h
    · rintro (h | ⟨rfl, _⟩)
      · exact absurd h h1
      · exact absurd h2 (lt_irrefl _)
  · have hxy : x = y := le_antisymm (not_lt.mp h2) (not_lt.mp h1)
    simp [hxy, lt_irrefl]

theorem strLt_trans : ∀ a b c : List Char,
    strLt a b = true → strLt b c = true → strLt a c = true
  | [], _ :: _, _ :: _, _, _ => rfl
  | [], [], _, h, _ => by cases h
  | [], _ :: _, [], _, h => by cases h
  | _ :: _, [], _, h, _ => by cases h
  | _ :: _, _ :: _, [], _, h => by cases h
  | x :: xs, y :: ys, z :: zs, h1, h2 => by
    rw [strLt_cons_iff] at h1 h2 ⊢
    rcases h1 with h1 | ⟨rfl, h1⟩
    · rcases h2 with h2 | ⟨rfl, h2⟩
      · exact Or.inl (lt_trans h1 h2)
      · exact Or.inl h1
    · rcases h2 with h2 | ⟨rfl, h2⟩
      · exact Or.inl h2
      · exact Or.inr ⟨rfl, strLt_trans _ _ _ h1 h2⟩

theorem strLt_eq_of_both_false : ∀ a b : List Char,
    strLt a b = false → strLt b a = false → a = b
  | [], [], _, _ => rfl
  | [], _ :: _, h, _ => by cases h
  | _ :: _, [], _, h => by cases h
  | x :: xs, y :: ys, h1, h2 => by
    simp only [strLt] at h1 h2
    rcases lt_trichotomy x y with hxy | hxy | hxy
    · simp [hxy] at h1
    · subst hxy
      simp only [lt_irrefl, if_false] at h1 h2
      rw [strLt_eq_of_both_false xs ys h1 h2]
    · simp [hxy, not_lt_of_gt hxy] at h2

theorem strLt_asymm {a b : List Char} (h : strLt a b = true) :
    strLt b a = false := by
  by_contra hb
  have hb' : strLt b a = true := by
    cases hba : strLt b a with
    | false => exact absurd hba hb
    | true => rfl
  have := strLt_trans a b a h hb'
  rw [strLt_irrefl a] at this
  cases this

instance : IsTrans Entry entryLe := by
  constructor
  intro a b c h1 h2
  show strLt c.z_value a.z_value = false
  cases hca : strLt c.z_value a.z_value with
  | false => rfl
  | true =>
    exfalso
    cases hab : strLt a.z_value b.z_value with
    | true =>
      have := strLt_trans _ _ _ hca hab
      rw [h2] at this
      cases this
    | false =>
      have heq := strLt_eq_of_both_false _ _ hab h1
      rw [heq] at hca
      rw [h2] at hca
      cases hca

/-- Two permutations of the same entry list that are both strictly sorted
by locality key are equal. -/
theorem sorted_perm_unique : ∀ l1 l2 : List Entry, l1.Perm l2 →
    l1.Pairwise (fun a b => strLt a.z_value b.z_value = true) →
    l2.Pairwise (fun a b => strLt a.z_value b.z_value = true) →
    l1 = l2
  | [], _, hp, _, _ => hp.nil_eq
  | a :: t1, [], hp, _, _ => by
    have := hp.length_eq
    simp at this
  | a :: t1, b :: t2, hp, hp1, hp2 => by
    have hab : a = b := by
      by_contra hne
      have hamem : a ∈ b :: t2 := hp.mem_iff.mp (List.mem_cons_self a t1)
      have hat2 : a ∈ t2 := by
        rcases List.mem_cons.mp hamem with h | h
        · exact absurd h hne
        · exact h
      have hbmem : b ∈ a :: t1 := hp.mem_iff.mpr (List.mem_cons_self b t2)
      have hbt1 : b ∈ t1 := by
        rcases List.mem_cons.mp hbmem with h | h
        · exact absurd h.symm hne
        · exact h
      have h1 : strLt a.z_value b.z_value = true :=
        (List.pairwise_cons.mp hp1).1 b hbt1
      have h2 : strLt b.z_value a.z_value = true :=
        (List.pairwise_cons.mp hp2).1 a hat2
      rw [strLt_asymm h1] at h2
      cases h2
    subst hab
    have htails := hp.cons_inv
    rw [sorted_perm_unique t1 t2 htails
      (List.pairwise_cons.mp hp1).2 (List.pairwise_cons.mp hp2).2]

/-- **C7 (counterexample).** `sortEntriesByZValue` uses `std::sort`, whose
contract is only "a permutation of the input sorted by the comparator" —
stability is not guaranteed.  For the two-entry input with equal locality
keys, the swapped list is a valid `std::sort` output, and in it the
relative order of the equal-key pair is the reverse of the input order. -/
theorem sortEntriesByZValue_not_stable :
    IsCppSortOutput
      [⟨1, ⟨0, 0, 1, 1⟩, ['a']⟩, ⟨2, ⟨2, 2, 3, 3⟩, ['a']⟩]
      [⟨2, ⟨2, 2, 3, 3⟩, ['a']⟩, ⟨1, ⟨0, 0, 1, 1⟩, ['a']⟩] ∧
    ([⟨2, ⟨2, 2, 3, 3⟩, ['a']⟩, ⟨1, ⟨0, 0, 1, 1⟩, ['a']⟩] : List Entry) ≠
      [⟨1, ⟨0, 0, 1, 1⟩, ['a']⟩, ⟨2, ⟨2, 2, 3, 3⟩, ['a']⟩] := by
  refine ⟨⟨List.Perm.swap _ _ _, List.chain'_pair.mpr ?_⟩, ?_⟩
  · show strLt ['a'] ['a'] = false
    decide
  · decide

/-- **C7 (amended).** The loader sorts entries by locality key ascending
(every `std::sort` output is a sorted permutation of the input), but the
sort is not stable, so the order of equal-key entries — and hence the built
tree — is implementation-defined for inputs with duplicate keys.  When the
locality keys are pairwise distinct, the sorted sequence is unique, so the
sort — and the tree built from it — is deterministic. -/
theorem sortEntriesByZValue_deterministic_of_distinct_keys
    (input out1 out2 : List Entry)
    (hnd : (input.map Entry.z_value).Nodup)
    (h1 : IsCppSortOutput input out1) (h2 : IsCppSortOutput input out2) :
    out1 = out2 := by
  have key : ∀ out : List Entry, IsCppSortOutput input out →
      out.Pairwise (fun a b => strLt a.z_value b.z_value = true) := by
    intro out hout
    have hndo : (out.map Entry.z_value).Nodup :=
      (hout.1.map Entry.z_value).nodup_iff.mpr hnd
    have hne : out.Pairwise (fun a b => a.z_value ≠ b.z_value) :=
      (List.pairwise_map).mp hndo
    have hle : out.Pairwise entryLe := List.chain'_iff_pairwise.mp hout.2
    refine (hne.and hle).imp ?_
    rintro a b ⟨hneq, hlef⟩
    cases hab : strLt a.z_value b.z_value with
    | true => rfl
    | false => exact absurd (strLt_eq_of_both_false _ _ hab hlef) hneq
  exact sorted_perm_unique out1 out2
    (h1.1.trans h2.1.symm) (key out1 h1) (key out2 h2)

/-- Witness for the amended C7: a two-entry input with distinct keys and
two (identical) valid sort outputs. -/
theorem sortEntriesByZValue_deterministic_witness :
    ([⟨2, ⟨2, 2, 3, 3⟩, ['a']⟩, ⟨1, ⟨0, 0, 1, 1⟩, ['b']⟩] : List Entry) =
      [⟨2, ⟨2, 2, 3, 3⟩, ['a']⟩, ⟨1, ⟨0, 0, 1, 1⟩, ['b']⟩] :=
  sortEntriesByZValue_deterministic_of_distinct_keys
    [⟨1, ⟨0, 0, 1, 1⟩, ['b']⟩, ⟨2, ⟨2, 2, 3, 3⟩, ['a']⟩] _ _
    (by decide)
    ⟨List.Perm.swap _ _ _, List.chain'_pair.mpr (by decide)⟩
    ⟨List.Perm.swap _ _ _, List.chain'_pair.mpr (by decide)⟩

/- ------------------------------------------------------------------ -/
/- MBR-union infrastructure: childrenUnion is order-invariant          -/
/- ------------------------------------------------------------------ -/

theorem mbr_eq {a b : MBR} (h1 : a.x_low = b.x_low) (h2 : a.y_low = b.y_low)
    (h3 : a.x_high = b.x_high) (h4 : a.y_high = b.y_high) : a = b := by
  cases a; cases b
  simp only at h1 h2 h3 h4
  simp [h1, h2, h3, h4]

theorem update_parent_mbr_comm (a b : MBR) :
    update_parent_mbr a b = update_parent_mbr b a := by
  refine mbr_eq ?_ ?_ ?_ ?_ <;>
    simp [update_parent_mbr, min_comm, max_comm]

theorem update_parent_mbr_right_comm (m a b : MBR) :
    update_parent_mbr (update_parent_mbr m a) b =
      update_parent_mbr (update_parent_mbr m b) a := by
  refine mbr_eq ?_ ?_ ?_ ?_ <;>
    simp [update_parent_mbr, min_right_comm, sup_right_comm]

/-- `update_parent_mbr` lifted to an accumulator that starts empty: `none`
is the state before the first child seeds the parent MBR. -/
def updO : Option MBR → MBR → Option MBR
  | none, b => some b
  | some a, b => some (update_parent_mbr a b)

theorem updO_right_comm (z : Option MBR) (a b : MBR) :
    updO (updO z a) b = updO (updO z b) a := by
  cases z with
  | none => simp [updO, update_parent_mbr_comm]
  | some m => simp [updO, update_parent_mbr_right_comm]

theorem foldl_updO_some : ∀ (l : List MBR) (first : MBR),
    l.foldl updO (some first) =
      some (l.foldl (fun acc c => update_parent_mbr acc c) first)
  | [], _ => rfl
  | c :: t, first => by
    simp only [List.foldl_cons, updO]
    exact foldl_updO_some t _

theorem childrenUnion_eq_foldl (first : MBR) (rest : List RTree) :
    childrenUnion first rest =
      rest.foldl (fun acc c => update_parent_mbr acc (rmbr c)) first := rfl

theorem childrenUnion_foldO (c0 : RTree) (rest : List RTree) :
    ((c0 :: rest).map rmbr).foldl updO none =
      some (childrenUnion (rmbr c0) rest) := by
  simp only [List.map_cons, List.foldl_cons, updO]
  rw [foldl_updO_some]
  congr 1
  rw [List.foldl_map]
  rfl

/-- `childrenUnion` depends only on the multiset of children: permuting a
nonempty child list (head seed included) leaves the union unchanged. -/
theorem childrenUnion_perm_head {c0 d0 : RTree} {rest rest' : List RTree}
    (hp : (c0 :: rest).Perm (d0 :: rest')) :
    childrenUnion (rmbr c0) rest = childrenUnion (rmbr d0) rest' := by
  have hm := hp.map rmbr
  have := hm.foldl_eq' (fun x _ y _ z => updO_right_comm z x y) none
  rw [childrenUnion_foldO, childrenUnion_foldO] at this
  exact Option.some.inj this

/- ------------------------------------------------------------------ -/
/- Structure of create_upper_level                                     -/
/- ------------------------------------------------------------------ -/

theorem rid_mkInternal (nid : Int) (flag : Bool) (c0 : RTree)
    (rest : List RTree) : rid (mkInternal nid flag c0 rest) = nid := rfl

/-- Characterization of the full-node loop: it consumes `20 * f` nodes into
`f` internal nodes of exactly 20 children each, assigns ids
`nid, nid+1, …`, and leaves the remaining nodes untouched. -/
theorem makeFullNodes_spec (flag : Bool) : ∀ (f : Nat) (nodes : List RTree)
    (nid : Int), 20 * f ≤ nodes.length →
    (makeFullNodes flag f nodes nid).2.1 = nodes.drop (20 * f) ∧
    (makeFullNodes flag f nodes nid).2.2 = nid + f ∧
    (makeFullNodes flag f nodes nid).1.length = f ∧
    ((makeFullNodes flag f nodes nid).1.map rid =
      (List.range f).map (fun (j : Nat) => nid + (j : Int))) ∧
    ∀ n' ∈ (makeFullNodes flag f nodes nid).1, ∃ c0 rest,
      n' = mkInternal (rid n') flag c0 rest ∧
      (c0 :: rest).length = 20 ∧ ∀ c ∈ c0 :: rest, c ∈ nodes := by
  intro f
  induction f with
  | zero =>
    intro nodes nid _
    simp [makeFullNodes]
  | succ f ih =>
    intro nodes nid hlen
    match nodes with
    | [] => simp at hlen
    | c0 :: restAll =>
      have hra : 19 + 20 * f ≤ restAll.length := by
        simp [List.length_cons] at hlen; omega
      have hrest : 20 * f ≤ (restAll.drop 19).length := by
        simp [List.length_drop]; omega
      obtain ⟨ha, hb, hc, hd, he⟩ := ih (restAll.drop 19) (nid + 1) hrest
      simp only [makeFullNodes]
      refine ⟨?_, ?_, ?_, ?_, ?_⟩
      · rw [ha, List.drop_drop]
        have h2 : 20 * (f + 1) = (20 * f + 19) + 1 := by ring
        have h3 : 19 + 20 * f = 20 * f + 19 := by ring
        rw [h2, h3, List.drop_succ_cons]
      · rw [hb]; push_cast; ring
      · simp [hc]
      · simp only [List.map_cons, rid_mkInternal, hd, List.range_succ_eq_map,
          List.map_map]
        congr 1
        · simp
        · refine List.map_congr_left ?_
          intro j _
          simp only [Function.comp_apply]
          push_cast
          ring
      · intro n' hm
        rcases List.mem_cons.mp hm with rfl | hm'
        · refine ⟨c0, restAll.take 19, rfl, ?_, ?_⟩
          · simp [List.length_take]; omega
          · intro c hcmem
            rcases List.mem_cons.mp hcmem with rfl | hcm
            · exact List.mem_cons_self _ _
            · exact List.mem_cons_of_mem _ (List.mem_of_mem_take hcm)
        · obtain ⟨d0, drest, heq, hlen20, hmem⟩ := he n' hm'
          refine ⟨d0, drest, heq, hlen20, ?_⟩
          intro c hcmem
          exact List.mem_cons_of_mem _ (List.mem_of_mem_drop (hmem c hcmem))

/-- Characterization of a successful borrowing loop: it needs strictly more
donor children than moves (else it dereferences an empty vector), takes the
first `cnt` elements of the reversed donor-child list, prepends them to the
recipient and folds their MBRs into the recipient's MBR. -/
theorem borrowLoop_spec : ∀ (cnt : Nat) (dRev : List RTree) (rm : MBR)
    (rc : List RTree) (res : List RTree × MBR × List RTree),
    borrowLoop cnt dRev rm rc = some res →
    (cnt = 0 ∨ cnt < dRev.length) ∧
    res.1 = dRev.drop cnt ∧
    res.2.1 = (dRev.take cnt).foldl
      (fun m c => update_parent_mbr m (rmbr c)) rm ∧
    res.2.2 = (dRev.take cnt).reverse ++ rc := by
  intro cnt
  induction cnt with
  | zero =>
    intro dRev rm rc res h
    simp only [borrowLoop, Option.some.injEq] at h
    subst h
    simp
  | succ n ih =>
    intro dRev rm rc res h
    match dRev with
    | [] => exact absurd h (by simp [borrowLoop])
    | c :: drest =>
      simp only [borrowLoop] at h
      by_cases hemp : drest.isEmpty
      · rw [if_pos hemp] at h
        cases h
      · rw [if_neg hemp] at h
        obtain ⟨hlt, h1, h2, h3⟩ := ih drest _ _ res h
        have hdne : drest ≠ [] := by
          intro habs
          rw [habs] at hemp
          exact hemp rfl
        refine ⟨?_, ?_, ?_, ?_⟩
        · right
          simp only [List.length_cons]
          rcases hlt with rfl | hlt
          · have := List.length_pos.mpr hdne
            omega
          · omega
        · simpa using h1
        · simpa using h2
        · simp only [List.take_succ_cons, List.reverse_cons, h3]
          simp

/-- Value of the wrapped `size_t` subtraction `MIN_FANOUT - remainder` for
each possible nonzero remainder. -/
theorem needed_children_eq (r : Nat) (h1 : 1 ≤ r) (h2 : r ≤ 19) :
    (((MIN_FANOUT : Int) - (r : Int)) % (SIZE_T_MOD : Int)).toNat =
      if r ≤ 8 then 8 - r else 2 ^ 64 - (r - 8) := by
  interval_cases r <;> decide

/-- Characterization of a successful `create_upper_level` pass on at least
two nodes: the result is nonempty, ids are assigned consecutively from
`nid`, and every produced node is an internal node whose MBR is the
incremental union of its children, whose flag is `nid == 0`, whose children
all come from the input level, with at most `MAX_FANOUT` children — and at
least `MIN_FANOUT` unless it is the single node of its level. -/
theorem create_upper_level_spec {nodes : List RTree} {nid : Int}
    {next : List RTree} {nid' : Int}
    (h : create_upper_level nodes nid = some (next, nid'))
    (hlen2 : 2 ≤ nodes.length) :
    next ≠ [] ∧
    nid' = nid + next.length ∧
    next.map rid =
      (List.range next.length).map (fun (j : Nat) => nid + (j : Int)) ∧
    ∀ n' ∈ next, ∃ c0 rest,
      n' = mkInternal (rid n') (nid == 0) c0 rest ∧
      (c0 :: rest).length ≤ 20 ∧
      (2 ≤ next.length → 8 ≤ (c0 :: rest).length) ∧
      ∀ c ∈ c0 :: rest, c ∈ nodes := by
  have h20 : 20 * (nodes.length / 20) ≤ nodes.length := by
    calc 20 * (nodes.length / 20) = nodes.length / 20 * 20 := by ring
    _ ≤ nodes.length := Nat.div_mul_le_self _ _
  obtain ⟨ha, hb, hc, hd, he⟩ :=
    makeFullNodes_spec (nid == 0) (nodes.length / 20) nodes nid h20
  simp only [create_upper_level, MAX_FANOUT] at h
  set F := makeFullNodes (nid == 0) (nodes.length / 20) nodes nid with hF
  set k := nodes.length / 20 with hk
  set r := nodes.length % 20 with hr
  set N := (((MIN_FANOUT : Int) - (r : Int)) % (SIZE_T_MOD : Int)).toNat
    with hNdef
  have hsum : r + 20 * k = nodes.length := Nat.mod_add_div nodes.length 20
  have hrlt : r < 20 := Nat.mod_lt _ (by norm_num)
  by_cases hr0 : r = 0
  · rw [if_pos hr0] at h
    simp only [Option.some.injEq, Prod.mk.injEq] at h
    obtain ⟨hnext, hnid⟩ := h
    subst hnext
    subst hnid
    have hk1 : 1 ≤ k := by omega
    refine ⟨?_, ?_, ?_, ?_⟩
    · intro habs
      rw [habs] at hc
      simp at hc
      omega
    · rw [hb, hc]
    · rw [hd, hc]
    · intro n' hm
      obtain ⟨c0, rest, heq, hlen20, hmem⟩ := he n' hm
      exact ⟨c0, rest, heq, by omega, fun _ => by omega, hmem⟩
  · rw [if_neg hr0] at h
    have hr1 : 1 ≤ r := by omega
    have hremlen : F.2.1.length = r := by
      rw [ha, List.length_drop]
      omega
    split at h
    · rename_i heq0
      rw [heq0] at hremlen
      simp at hremlen
      omega
    · rename_i c0 rrest heqrem
      rw [heqrem] at hremlen
      simp only [List.length_cons] at hremlen
      have hneed : N = if r ≤ 8 then 8 - r else 2 ^ 64 - (r - 8) := by
        rw [hNdef]
        exact needed_children_eq r hr1 (by omega)
      have hmemrem : ∀ c ∈ c0 :: rrest, c ∈ nodes := by
        intro c hcm
        rw [← heqrem] at hcm
        rw [ha] at hcm
        exact List.mem_of_mem_drop hcm
      split at h
      · -- borrowing branch
        rename_i hg
        obtain ⟨hgpos, hgfull⟩ := hg
        have hfne : F.1 ≠ [] := by
          intro habs
          rw [habs] at hgfull
          simp at hgfull
        have hk1 : 1 ≤ k := by
          rw [← hc]
          exact List.length_pos.mpr hfne
        split at h
        · exact Option.noConfusion h
        · rename_i donor hgl
          have hdl : F.1.dropLast ++ [donor] = F.1 :=
            List.dropLast_append_getLast? donor hgl
          have hdonmem : donor ∈ F.1 := by
            rw [← hdl]
            exact List.mem_append_right _ (List.mem_singleton_self _)
          obtain ⟨d0, drest0, hdeq, hdlen, hdmem⟩ := he donor hdonmem
          split at h
          · exact Option.noConfusion h
          · rename_i did dmbr dflag dcs
            simp only [mkInternal, rid, RTree.internal.injEq, true_and] at hdeq
            obtain ⟨hdmbr, hdflag, hdcs⟩ := hdeq
            rw [hdcs, RTreeList.toList_ofList] at h
            split at h
            · exact Option.noConfusion h
            · rename_i dr' rm' rc' hbl
              obtain ⟨hcnt, hdr, hrm, hrc⟩ := borrowLoop_spec N _ _ _ _ hbl
              dsimp only at hdr hrm hrc
              have hdrevlen : (d0 :: drest0).reverse.length = 20 := by
                simp only [List.length_reverse]
                exact hdlen
              have hNlt : N < 20 := by
                rcases hcnt with h0 | hlt
                · omega
                · rw [hdrevlen] at hlt
                  exact hlt
              have hr7 : r ≤ 7 ∧ N = 8 - r := by
                by_cases hr8 : r ≤ 8
                · rw [hneed, if_pos hr8] at hNlt hgpos
                  refine ⟨by omega, ?_⟩
                  rw [hneed, if_pos hr8]
                · rw [hneed, if_neg hr8] at hNlt
                  omega
              have hdr'len : dr'.length = 20 - N := by
                rw [hdr, List.length_drop, hdrevlen]
              split at h
              · exact Option.noConfusion h
              · rename_i d0' drest' hrev
                simp only [Option.some.injEq, Prod.mk.injEq] at h
                obtain ⟨hnext, hnid⟩ := h
                subst hnext
                subst hnid
                -- lengths
                have hdllen : F.1.dropLast.length = k - 1 := by
                  simp [List.length_dropLast, hc]
                have hnextlen :
                    (F.1.dropLast ++
                      [RTree.internal did
                        (childrenUnion (rmbr d0') drest') dflag
                        (RTreeList.ofList (d0' :: drest')),
                       RTree.internal F.2.2 rm' (nid == 0)
                        (RTreeList.ofList rc')]).length = k + 1 := by
                  simp [List.length_append, hdllen]
                  omega
                -- id bookkeeping
                have hmapF : F.1.dropLast.map rid ++ [did] =
                    (List.range k).map (fun (j : Nat) => nid + (j : Int)) := by
                  have h' := congrArg (List.map rid) hdl
                  rw [List.map_append] at h'
                  simpa [rid, hd] using h'
                have hkk : k = (k - 1) + 1 := by omega
                rw [hkk, List.range_succ, List.map_append] at hmapF
                obtain ⟨hmapdl, hlastid⟩ := List.append_inj hmapF (by
                  simp [List.length_dropLast, hc])
                have hdonid : did = nid + ((k - 1 : Nat) : Int) := by
                  simpa using hlastid
                -- rc' shape and union
                have hrcne : rc' ≠ [] := by
                  rw [hrc]
                  simp
                obtain ⟨e0, etail, hrceq⟩ :
                    ∃ e0 etail, rc' = e0 :: etail := by
                  cases rc' with
                  | nil => exact absurd rfl hrcne
                  | cons a b => exact ⟨a, b, rfl⟩
                have hperm : (e0 :: etail).Perm
                    (c0 :: (rrest ++ (d0 :: drest0).reverse.take N)) := by
                  rw [← hrceq, hrc]
                  refine List.Perm.trans List.perm_append_comm ?_
                  exact List.Perm.cons _
                    (List.Perm.append_left _ (List.reverse_perm _))
                have hrm' : rm' = childrenUnion (rmbr e0) etail := by
                  rw [hrm]
                  rw [childrenUnion_eq_foldl, ← List.foldl_append]
                  rw [← childrenUnion_eq_foldl]
                  exact childrenUnion_perm_head hperm.symm
                have hrclen : rc'.length = 8 := by
                  rw [hrc]
                  simp only [List.length_append, List.length_reverse,
                    List.length_take, List.length_cons, hdrevlen]
                  omega
                refine ⟨by simp, ?_, ?_, ?_⟩
                · rw [hnextlen, hb]
                  push_cast
                  ring
                · rw [hnextlen]
                  simp only [List.map_append, List.map_cons, List.map_nil,
                    rid, hmapdl]
                  have hresplit : k + 1 = ((k - 1) + 1) + 1 := by omega
                  rw [hresplit, List.range_succ, List.range_succ]
                  simp only [List.map_append, List.map_cons, List.map_nil]
                  rw [List.append_assoc]
                  simp only [List.singleton_append]
                  rw [hdonid, hb, ← hkk]
                · intro n' hm
                  rw [List.mem_append] at hm
                  rcases hm with hm | hm
                  · obtain ⟨g0, grest, hgeq, hg20, hgmem⟩ :=
                      he n' ((List.dropLast_sublist F.1).subset hm)
                    exact ⟨g0, grest, hgeq, by omega, fun _ => by omega, hgmem⟩
                  · simp only [List.mem_cons, List.not_mem_nil, or_false] at hm
                    rcases hm with rfl | rfl
                    · -- the donor after borrowing
                      refine ⟨d0', drest', ?_, ?_, ?_, ?_⟩
                      · simp only [mkInternal, rid]
                        rw [hdflag]
                      · have : (d0' :: drest').length = 20 - N := by
                          rw [← hrev, List.length_reverse, hdr'len]
                        omega
                      · intro _
                        have : (d0' :: drest').length = 20 - N := by
                          rw [← hrev, List.length_reverse, hdr'len]
                        omega
                      · intro c hcm
                        have hc1 : c ∈ dr'.reverse := by
                          rw [hrev]
                          exact hcm
                        rw [List.mem_reverse] at hc1
                        rw [hdr] at hc1
                        have hc2 := List.mem_of_mem_drop hc1
                        rw [List.mem_reverse] at hc2
                        exact hdmem c hc2
                    · -- the remainder node after borrowing
                      refine ⟨e0, etail, ?_, ?_, ?_, ?_⟩
                      · simp only [mkInternal, rid]
                        rw [hrm', hrceq]
                      · rw [← hrceq, hrclen]
                        omega
                      · intro _
                        rw [← hrceq, hrclen]
                      · intro c hcm
                        rw [← hrceq] at hcm
                        rw [hrc, List.mem_append] at hcm
                        rcases hcm with hcm | hcm
                        · rw [List.mem_reverse] at hcm
                          have hc2 := List.mem_of_mem_take hcm
                          rw [List.mem_reverse] at hc2
                          exact hdmem c hc2
                        · exact hmemrem c hcm
      · -- no borrowing: the remainder node is appended as built
        rename_i hg
        simp only [Option.some.injEq, Prod.mk.injEq] at h
        obtain ⟨hnext, hnid⟩ := h
        subst hnext
        subst hnid
        have hnextlen : (F.1 ++
            [RTree.internal F.2.2 (childrenUnion (rmbr c0) rrest) (nid == 0)
              (RTreeList.ofList (c0 :: rrest))]).length = k + 1 := by
          simp [List.length_append, hc]
        refine ⟨by simp, ?_, ?_, ?_⟩
        · rw [hnextlen, hb]
          push_cast
          ring
        · rw [hnextlen]
          simp only [List.map_append, List.map_cons, List.map_nil, hd, rid]
          rw [List.range_succ, List.map_append]
          congr 1
          simp only [List.map_cons, List.map_nil]
          rw [hb]
        · intro n' hm
          rw [List.mem_append] at hm
          rcases hm with hm | hm
          · obtain ⟨g0, grest, hgeq, hg20, hgmem⟩ := he n' hm
            exact ⟨g0, grest, hgeq, by omega, fun _ => by omega, hgmem⟩
          · simp only [List.mem_cons, List.not_mem_nil, or_false] at hm
            subst hm
            refine ⟨c0, rrest, ?_, ?_, ?_, hmemrem⟩
            · simp only [mkInternal, rid]
            · simp only [List.length_cons]
              omega
            · intro hlen2'
              rw [hnextlen] at hlen2'
              have hkge : 1 ≤ k := by omega
              have hfne : F.1 ≠ [] := by
                intro habs
                rw [habs] at hc
                simp at hc
                omega
              have hemp : F.1.isEmpty = false := by
                cases hFe : F.1 with
                | nil => exact absurd hFe hfne
                | cons a b => rfl
              have hN0 : ¬ 0 < N := by
                intro hpos
                exact hg ⟨hpos, hemp⟩
              have hNeq0 : N = 0 := by omega
              rw [hneed] at hNeq0
              by_cases hr8 : r ≤ 8
              · rw [if_pos hr8] at hNeq0
                simp only [List.length_cons]
                omega
              · rw [if_neg hr8] at hNeq0
                omega

/- ------------------------------------------------------------------ -/
/- Tree invariants: fanout and tight MBRs                              -/
/- ------------------------------------------------------------------ -/

/-- Fanout invariant: every internal node of the tree — the root of the
tree included — has between `MIN_FANOUT` and `MAX_FANOUT` children. -/
inductive FanoutOK : RTree → Prop
  | leaf (i : Int) (m : MBR) : FanoutOK (.leaf i m)
  | internal (i : Int) (m : MBR) (b : Bool) (cs : RTreeList)
      (h8 : 8 ≤ cs.toList.length) (h20 : cs.toList.length ≤ 20)
      (hrec : ∀ c ∈ cs.toList, FanoutOK c) :
      FanoutOK (.internal i m b cs)

/-- Tight-MBR invariant: every internal node's MBR is the incremental union
(`childrenUnion`, i.e. repeated `update_parent_mbr` from the first child) of
its children's MBRs. -/
inductive TightMBR : RTree → Prop
  | leaf (i : Int) (m : MBR) : TightMBR (.leaf i m)
  | internal (i : Int) (b : Bool) (cs : RTreeList) (c0 : RTree)
      (rest : List RTree) (hcs : cs.toList = c0 :: rest)
      (hrec : ∀ c ∈ cs.toList, TightMBR c) :
      TightMBR (.internal i (childrenUnion (rmbr c0) rest) b cs)

theorem update_parent_mbr_contains_left (a b : MBR) :
    containsMBR (update_parent_mbr a b) a := by
  refine ⟨?_, ?_, ?_, ?_⟩ <;> simp [update_parent_mbr]

theorem update_parent_mbr_contains_right (a b : MBR) :
    containsMBR (update_parent_mbr a b) b := by
  refine ⟨?_, ?_, ?_, ?_⟩ <;> simp [update_parent_mbr]

theorem update_parent_mbr_lub {R a b : MBR} (ha : containsMBR R a)
    (hb : containsMBR R b) : containsMBR R (update_parent_mbr a b) := by
  obtain ⟨a1, a2, a3, a4⟩ := ha
  obtain ⟨b1, b2, b3, b4⟩ := hb
  refine ⟨?_, ?_, ?_, ?_⟩ <;> simp [update_parent_mbr] <;> constructor <;>
    assumption

/-- The union rectangle contains the seed and each folded child MBR. -/
theorem childrenUnion_contains : ∀ (rest : List RTree) (first : MBR),
    containsMBR (childrenUnion first rest) first ∧
    ∀ c ∈ rest, containsMBR (childrenUnion first rest) (rmbr c)
  | [], first => ⟨containsMBR_refl first, by simp⟩
  | c :: t, first => by
    have ih := childrenUnion_contains t (update_parent_mbr first (rmbr c))
    have hstep : childrenUnion first (c :: t) =
        childrenUnion (update_parent_mbr first (rmbr c)) t := rfl
    rw [hstep]
    refine ⟨containsMBR_trans ih.1 (update_parent_mbr_contains_left _ _), ?_⟩
    intro c' hc'
    rcases List.mem_cons.mp hc' with rfl | hc'
    · exact containsMBR_trans ih.1 (update_parent_mbr_contains_right _ _)
    · exact ih.2 c' hc'

/-- The union rectangle is the least rectangle containing seed and
children. -/
theorem childrenUnion_minimal : ∀ (rest : List RTree) (first R : MBR),
    containsMBR R first → (∀ c ∈ rest, containsMBR R (rmbr c)) →
    containsMBR R (childrenUnion first rest)
  | [], _, _, h, _ => h
  | c :: t, first, R, h, hall => by
    have hstep : childrenUnion first (c :: t) =
        childrenUnion (update_parent_mbr first (rmbr c)) t := rfl
    rw [hstep]
    refine childrenUnion_minimal t _ R
      (update_parent_mbr_lub h (hall c (List.mem_cons_self _ _))) ?_
    intro c' hc'
    exact hall c' (List.mem_cons_of_mem _ hc')

/-- A tight tree satisfies the containment invariant used by the query
algorithms. -/
theorem tight_contains {t : RTree} (h : TightMBR t) : ContainsInv t := by
  induction h with
  | leaf i m => exact ContainsInv.leaf i m
  | internal i b cs c0 rest hcs hrec ih =>
    refine ContainsInv.internal _ _ _ _ ?_ ih
    intro c hcmem
    rw [hcs] at hcmem
    rcases List.mem_cons.mp hcmem with rfl | hcmem
    · exact (childrenUnion_contains rest (rmbr c)).1
    · exact (childrenUnion_contains rest (rmbr c0)).2 c hcmem

/-- `create_upper_level` preserves tightness: new nodes are built as
incremental unions of their children. -/
theorem create_upper_level_tight {nodes : List RTree} {nid : Int}
    {next : List RTree} {nid' : Int}
    (h : create_upper_level nodes nid = some (next, nid'))
    (hlen : 2 ≤ nodes.length) (hin : ∀ n ∈ nodes, TightMBR n) :
    ∀ n' ∈ next, TightMBR n' := by
  obtain ⟨_, _, _, hmem⟩ := create_upper_level_spec h hlen
  intro n' hm
  obtain ⟨c0, rest, heq, _, _, hcm⟩ := hmem n' hm
  rw [heq]
  simp only [mkInternal]
  refine TightMBR.internal _ _ _ _ _ (RTreeList.toList_ofList _) ?_
  intro c hc
  rw [RTreeList.toList_ofList] at hc
  exact hin c (hcm c hc)

/-- `create_upper_level` preserves the fanout invariant whenever the
produced level has at least two nodes; the single node of a final level
still has between 1 and `MAX_FANOUT` children, all satisfying the
invariant. -/
theorem create_upper_level_fanout {nodes : List RTree} {nid : Int}
    {next : List RTree} {nid' : Int}
    (h : create_upper_level nodes nid = some (next, nid'))
    (hlen : 2 ≤ nodes.length) (hin : ∀ n ∈ nodes, FanoutOK n) :
    (2 ≤ next.length → ∀ n' ∈ next, FanoutOK n') ∧
    ∀ n' ∈ next, ∃ i m b cs, n' = RTree.internal i m b cs ∧
      1 ≤ cs.toList.length ∧ cs.toList.length ≤ 20 ∧
      ∀ c ∈ cs.toList, FanoutOK c := by
  obtain ⟨_, _, _, hmem⟩ := create_upper_level_spec h hlen
  constructor
  · intro h2 n' hm
    obtain ⟨c0, rest, heq, h20, h8, hcm⟩ := hmem n' hm
    rw [heq]
    simp only [mkInternal]
    refine FanoutOK.internal _ _ _ _ ?_ ?_ ?_
    · rw [RTreeList.toList_ofList]
      exact h8 h2
    · rw [RTreeList.toList_ofList]
      exact h20
    · intro c hc
      rw [RTreeList.toList_ofList] at hc
      exact hin c (hcm c hc)
  · intro n' hm
    obtain ⟨c0, rest, heq, h20, _, hcm⟩ := hmem n' hm
    refine ⟨rid n', childrenUnion (rmbr c0) rest, (nid == 0),
      RTreeList.ofList (c0 :: rest), heq, ?_, ?_, ?_⟩
    · rw [RTreeList.toList_ofList]
      simp
    · rw [RTreeList.toList_ofList]
      exact h20
    · intro c hc
      rw [RTreeList.toList_ofList] at hc
      exact hin c (hcm c hc)

/-- A `build_tree_loop` call that returns with at most one node in hand:
the node list must be a single internal node, which becomes the root, and
no further lines are written. -/
theorem build_tree_loop_short {ρ : ℚ → ℚ} {fuel : Nat} {nodes : List RTree}
    {nid : Int} {acc : List Line} {root : RTree} {lines : List Line}
    (hlen : nodes.length ≤ 1)
    (h : build_tree_loop ρ fuel nodes nid acc = some (root, lines)) :
    ∃ i m b cs, nodes = [RTree.internal i m b cs] ∧
      root = RTree.internal i m b cs ∧ lines = acc := by
  rw [build_tree_loop.eq_def] at h
  rw [if_pos hlen] at h
  split at h
  · rename_i i m b cs
    simp only [Option.some.injEq, Prod.mk.injEq] at h
    exact ⟨i, m, b, cs, rfl, h.1.symm, h.2.symm⟩
  · exact Option.noConfusion h

/-- Invariants carried through the level-building loop: if the loop
succeeds, the root is tight, and it is an internal node with between 1 and
20 children that all satisfy the fanout invariant. -/
theorem build_tree_loop_inv (ρ : ℚ → ℚ) : ∀ (fuel : Nat)
    (nodes : List RTree) (nid : Int) (acc : List Line) (root : RTree)
    (lines : List Line),
    build_tree_loop ρ fuel nodes nid acc = some (root, lines) →
    (∀ n ∈ nodes, TightMBR n) → (∀ n ∈ nodes, FanoutOK n) →
    TightMBR root ∧ ∃ i m b cs, root = RTree.internal i m b cs ∧
      1 ≤ cs.toList.length ∧ cs.toList.length ≤ 20 ∧
      ∀ c ∈ cs.toList, FanoutOK c := by
  intro fuel
  induction fuel with
  | zero =>
    intro nodes nid acc root lines h htight hfan
    by_cases hlen : nodes.length ≤ 1
    · obtain ⟨i, m, b, cs, hnodes, hroot, _⟩ := build_tree_loop_short hlen h
      have hmem : root ∈ nodes := by
        rw [hnodes, hroot]
        exact List.mem_singleton_self _
      refine ⟨htight root hmem, ?_⟩
      have := hfan root hmem
      rw [hroot] at this ⊢
      cases this with
      | internal _ _ _ _ h8 h20 hrec =>
        exact ⟨i, m, b, cs, rfl, by omega, h20, hrec⟩
    · rw [build_tree_loop.eq_def, if_neg hlen] at h
      exact Option.noConfusion h
  | succ fuel ih =>
    intro nodes nid acc root lines h htight hfan
    by_cases hlen : nodes.length ≤ 1
    · obtain ⟨i, m, b, cs, hnodes, hroot, _⟩ := build_tree_loop_short hlen h
      have hmem : root ∈ nodes := by
        rw [hnodes, hroot]
        exact List.mem_singleton_self _
      refine ⟨htight root hmem, ?_⟩
      have := hfan root hmem
      rw [hroot] at this ⊢
      cases this with
      | internal _ _ _ _ h8 h20 hrec =>
        exact ⟨i, m, b, cs, rfl, by omega, h20, hrec⟩
    · rw [build_tree_loop.eq_def, if_neg hlen] at h
      split at h
      · exact Option.noConfusion h
      · rename_i fuel2 hfuel2
        have hfe : fuel2 = fuel := by omega
        subst hfe
        split at h
        · exact Option.noConfusion h
        · rename_i next nid2 hcu
          have hlen2 : 2 ≤ nodes.length := by omega
          have htight' := create_upper_level_tight hcu hlen2 htight
          have hfan' := create_upper_level_fanout hcu hlen2 hfan
          by_cases hnlen : next.length ≤ 1
          · obtain ⟨i, m, b, cs, hnodes, hroot, _⟩ :=
              build_tree_loop_short hnlen h
            have hmem : root ∈ next := by
              rw [hnodes, hroot]
              exact List.mem_singleton_self _
            refine ⟨htight' root hmem, ?_⟩
            obtain ⟨i', m', b', cs', heq, h1, h20, hrec⟩ := hfan'.2 root hmem
            exact ⟨i', m', b', cs', heq, h1, h20, hrec⟩
          · refine ih next nid2 _ root lines h htight' ?_
            exact hfan'.1 (by omega)

/-- **C4.** Every tree the bulk loader produces has an internal root with
at least one child, and every non-root internal node — i.e. every internal
node inside a child subtree of the root — has between `MIN_FANOUT = 8` and
`MAX_FANOUT = 20` children inclusive (`FanoutOK`).  The documented
remainder edge case only ever occurs at the root itself (a first-and-only
remainder group immediately ends the loop), so no exception below the root
is needed. -/
theorem bulk_load_fanout (ρ : ℚ → ℚ) (entries : List Entry) (root : RTree)
    (lines : List Line) (h : build_tree ρ entries = some (root, lines)) :
    ∃ i m b cs, root = RTree.internal i m b cs ∧
      1 ≤ cs.toList.length ∧ cs.toList.length ≤ 20 ∧
      ∀ c ∈ cs.toList, FanoutOK c := by
  refine (build_tree_loop_inv ρ entries.length (build_leaf_nodes entries)
    0 [] root lines h ?_ ?_).2
  · intro n hn
    simp only [build_leaf_nodes, List.mem_map] at hn
    obtain ⟨e, _, rfl⟩ := hn
    exact TightMBR.leaf _ _
  · intro n hn
    simp only [build_leaf_nodes, List.mem_map] at hn
    obtain ⟨e, _, rfl⟩ := hn
    exact FanoutOK.leaf _ _

/-- Witness for C4: loading two entries yields a root with the two leaves
as children. -/
theorem bulk_load_fanout_witness :
    ∃ i m b cs,
      RTree.internal 0 ⟨0, 0, 3, 3⟩ true
        (RTreeList.ofList [RTree.leaf 1 ⟨0, 0, 1, 1⟩,
          RTree.leaf 2 ⟨2, 2, 3, 3⟩]) = RTree.internal i m b cs ∧
      1 ≤ cs.toList.length ∧ cs.toList.length ≤ 20 ∧
      ∀ c ∈ cs.toList, FanoutOK c :=
  bulk_load_fanout id
    [⟨1, ⟨0, 0, 1, 1⟩, ['a']⟩, ⟨2, ⟨2, 2, 3, 3⟩, ['b']⟩] _ _ rfl

/- ------------------------------------------------------------------ -/
/- Deserializer (build_tree_from_file, shared by both query programs)  -/
/- ------------------------------------------------------------------ -/

/-- The `id_to_node.find(child_id)` lookup of `build_tree_from_file`:
`unordered_map` holds one node per id; insertion overwrites, so the model
prepends and the lookup takes the most recent binding. -/
def lookupId (m : List (Int × RTree)) (i : Int) : Option RTree :=
  match m.find? (fun p => p.1 == i) with
  | none => none
  | some p => some p.2

/-- Resolution of the child ids of a non-leaf line against the id map.  The
source dereferences the `find` iterator without checking: a missing id is
undefined behavior, modelled as `none`. -/
def resolveKids : List (Int × MBR) → List (Int × RTree) → Option (List RTree)
  | [], _ => some []
  | (cid, _) :: rest, m =>
    match lookupId m cid with
    | none => none
    | some t =>
      match resolveKids rest m with
      | none => none
      | some ts => some (t :: ts)

/-- Processing of one line of the tree file: synthesize leaf children when
the flag digit is `0`, otherwise resolve the child ids; then
`recompute_node_mbr` (which reads `children[0]` — undefined behavior on an
empty child list), insert into the id map and remember the node as the
current root. -/
def desStep (st : List (Int × RTree) × Option RTree) (ln : Line) :
    Option (List (Int × RTree) × Option RTree) :=
  let isLeaf := ln.flag == 0
  let childrenO : Option (List RTree) :=
    if isLeaf then some (ln.kids.map (fun p => RTree.leaf p.1 p.2))
    else resolveKids ln.kids st.1
  match childrenO with
  | none => none
  | some [] => none
  | some (c0 :: rest) =>
    let node := RTree.internal ln.nid (childrenUnion (rmbr c0) rest) isLeaf
      (RTreeList.ofList (c0 :: rest))
    some ((ln.nid, node) :: st.1, some node)

/-- The line-reading loop of `build_tree_from_file`. -/
def deserializeRun : List Line → (List (Int × RTree) × Option RTree) →
    Option (List (Int × RTree) × Option RTree)
  | [], st => some st
  | ln :: rest, st =>
    match desStep st ln with
    | none => none
    | some st' => deserializeRun rest st'

/-- `build_tree_from_file` on an already tokenized file: `none` models a
crash (undefined behavior); `some none` is the "Tree is empty!" null root
of an empty file; `some (some root)` is a successful load, the root being
the node of the last line. -/
def build_tree_from_file (lines : List Line) : Option (Option RTree) :=
  match deserializeRun lines ([], none) with
  | none => none
  | some st => some st.2

/- ------------------------------------------------------------------ -/
/- C5: internal MBRs are exact unions                                  -/
/- ------------------------------------------------------------------ -/

theorem resolveKids_mem : ∀ (kids : List (Int × MBR))
    (m : List (Int × RTree)) (ts : List RTree),
    resolveKids kids m = some ts → ∀ t ∈ ts, ∃ p ∈ m, p.2 = t := by
  intro kids
  induction kids with
  | nil =>
    intro m ts h t ht
    simp only [resolveKids, Option.some.injEq] at h
    subst h
    cases ht
  | cons kid rest ih =>
    intro m ts h t ht
    obtain ⟨cid, cm⟩ := kid
    simp only [resolveKids] at h
    split at h
    · exact Option.noConfusion h
    · rename_i t0 hl
      split at h
      · exact Option.noConfusion h
      · rename_i ts0 hres
        simp only [Option.some.injEq] at h
        subst h
        rcases List.mem_cons.mp ht with rfl | ht
        · simp only [lookupId] at hl
          split at hl
          · exact Option.noConfusion hl
          · rename_i p hfind
            simp only [Option.some.injEq] at hl
            exact ⟨p, List.mem_of_find?_eq_some hfind, hl⟩
        · exact ih m ts0 hres t ht

/-- The deserializer only ever constructs tight internal nodes
(`recompute_node_mbr` rebuilds each node's MBR from its children). -/
theorem desStep_tight {st : List (Int × RTree) × Option RTree} {ln : Line}
    {st' : List (Int × RTree) × Option RTree}
    (h : desStep st ln = some st') (hinv : ∀ p ∈ st.1, TightMBR p.2) :
    (∀ p ∈ st'.1, TightMBR p.2) ∧
    (∀ t, st'.2 = some t → TightMBR t) := by
  simp only [desStep] at h
  split at h
  · exact Option.noConfusion h
  · exact Option.noConfusion h
  · rename_i c0 rest hch
    simp only [Option.some.injEq] at h
    subst h
    have hkids : ∀ c ∈ c0 :: rest, TightMBR c := by
      intro c hc
      by_cases hfl : (ln.flag == 0) = true
      · rw [if_pos hfl, Option.some.injEq] at hch
        have : c ∈ ln.kids.map (fun p => RTree.leaf p.1 p.2) := by
          rw [hch]
          exact hc
        obtain ⟨p, _, hp⟩ := List.mem_map.mp this
        rw [← hp]
        exact TightMBR.leaf _ _
      · rw [if_neg hfl] at hch
        obtain ⟨p, hpm, hp⟩ := resolveKids_mem ln.kids st.1 _ hch c hc
        rw [← hp]
        exact hinv p hpm
    have hnode : TightMBR (RTree.internal ln.nid
        (childrenUnion (rmbr c0) rest) (ln.flag == 0)
        (RTreeList.ofList (c0 :: rest))) := by
      refine TightMBR.internal _ _ _ _ _ (RTreeList.toList_ofList _) ?_
      intro c hc
      rw [RTreeList.toList_ofList] at hc
      exact hkids c hc
    refine ⟨?_, ?_⟩
    · intro p hp
      rcases List.mem_cons.mp hp with rfl | hp
      · exact hnode
      · exact hinv p hp
    · intro t ht
      simp only [Option.some.injEq] at ht
      rw [← ht]
      exact hnode

theorem deserializeRun_tight : ∀ (lines : List Line)
    (st st' : List (Int × RTree) × Option RTree),
    deserializeRun lines st = some st' →
    (∀ p ∈ st.1, TightMBR p.2) → (∀ t, st.2 = some t → TightMBR t) →
    (∀ p ∈ st'.1, TightMBR p.2) ∧ (∀ t, st'.2 = some t → TightMBR t) := by
  intro lines
  induction lines with
  | nil =>
    intro st st' h h1 h2
    simp only [deserializeRun, Option.some.injEq] at h
    subst h
    exact ⟨h1, h2⟩
  | cons ln rest ih =>
    intro st st' h h1 h2
    simp only [deserializeRun] at h
    split at h
    · exact Option.noConfusion h
    · rename_i st0 hstep
      obtain ⟨h1', h2'⟩ := desStep_tight hstep h1
      exact ih st0 st' h h1' h2'

/-- **C5.** Every internal node of a tree the bulk loader builds, and of a
tree the deserializer reconstructs, has as MBR exactly the union
(`childrenUnion`) of its children's MBRs (`TightMBR`); that union is the
tightest covering rectangle: it contains every child MBR and is contained
in every rectangle that does.  The loader invariant covers the
remainder-borrowing step, which updates both donor (`recompute_node_mbr`)
and recipient (`update_parent_mbr` per moved child). -/
theorem mbr_exact_union (ρ : ℚ → ℚ) (entries : List Entry)
    (root : RTree) (lines : List Line) (fileLines : List Line)
    (root' : RTree) :
    (build_tree ρ entries = some (root, lines) → TightMBR root) ∧
    (build_tree_from_file fileLines = some (some root') → TightMBR root') ∧
    (∀ (c0 : RTree) (rest : List RTree),
      containsMBR (childrenUnion (rmbr c0) rest) (rmbr c0) ∧
      (∀ c ∈ rest, containsMBR (childrenUnion (rmbr c0) rest) (rmbr c)) ∧
      ∀ R, containsMBR R (rmbr c0) → (∀ c ∈ rest, containsMBR R (rmbr c)) →
        containsMBR R (childrenUnion (rmbr c0) rest)) := by
  refine ⟨?_, ?_, ?_⟩
  · intro h
    refine (build_tree_loop_inv ρ entries.length (build_leaf_nodes entries)
      0 [] root lines h ?_ ?_).1
    · intro n hn
      simp only [build_leaf_nodes, List.mem_map] at hn
      obtain ⟨e, _, rfl⟩ := hn
      exact TightMBR.leaf _ _
    · intro n hn
      simp only [build_leaf_nodes, List.mem_map] at hn
      obtain ⟨e, _, rfl⟩ := hn
      exact FanoutOK.leaf _ _
  · intro h
    simp only [build_tree_from_file] at h
    split at h
    · exact Option.noConfusion h
    · rename_i st hrun
      simp only [Option.some.injEq] at h
      have := deserializeRun_tight fileLines ([], none) st hrun
        (by intro p hp; cases hp) (by intro t ht; cases ht)
      exact this.2 root' (by rw [h])
  · intro c0 rest
    exact ⟨(childrenUnion_contains rest (rmbr c0)).1,
      (childrenUnion_contains rest (rmbr c0)).2,
      fun R h1 h2 => childrenUnion_minimal rest (rmbr c0) R h1 h2⟩

/-- Witness for C5: the two-entry load and the deserialization of the file
it writes both produce tight roots. -/
theorem mbr_exact_union_witness :
    TightMBR (RTree.internal 0 ⟨0, 0, 3, 3⟩ true
      (RTreeList.ofList [RTree.leaf 1 ⟨0, 0, 1, 1⟩,
        RTree.leaf 2 ⟨2, 2, 3, 3⟩])) ∧
    TightMBR (RTree.internal 7 ⟨0, 0, 3, 3⟩ true
      (RTreeList.ofList [RTree.leaf 1 ⟨0, 0, 1, 1⟩,
        RTree.leaf 2 ⟨2, 2, 3, 3⟩])) :=
  ⟨(mbr_exact_union id
      [⟨1, ⟨0, 0, 1, 1⟩, ['a']⟩, ⟨2, ⟨2, 2, 3, 3⟩, ['b']⟩]
      (RTree.internal 0 ⟨0, 0, 3, 3⟩ true
        (RTreeList.ofList [RTree.leaf 1 ⟨0, 0, 1, 1⟩,
          RTree.leaf 2 ⟨2, 2, 3, 3⟩]))
      [⟨0, 0, [(1, ⟨0, 0, 1, 1⟩), (2, ⟨2, 2, 3, 3⟩)]⟩] []
      (RTree.leaf 0 ⟨0, 0, 0, 0⟩)).1 rfl,
   (mbr_exact_union id [] (RTree.leaf 0 ⟨0, 0, 0, 0⟩) []
      [⟨0, 7, [(1, ⟨0, 0, 1, 1⟩), (2, ⟨2, 2, 3, 3⟩)]⟩]
      (RTree.internal 7 ⟨0, 0, 3, 3⟩ true
        (RTreeList.ofList [RTree.leaf 1 ⟨0, 0, 1, 1⟩,
          RTree.leaf 2 ⟨2, 2, 3, 3⟩]))).2.1 rfl⟩

/- ------------------------------------------------------------------ -/
/- C8: dangling child references in the deserializer                   -/
/- ------------------------------------------------------------------ -/

/-- **C8.** A tree-file line with flag `1` (non-leaf children) whose child
id `5` was never defined: the deserializer performs
`id_to_node.find(child_id)` and dereferences the iterator without any
check, so the lookup misses and the program dereferences the `end()`
iterator — undefined behavior (modelled as `none`), not a
`DanglingReferenceError` with a message: no such error path exists in the
source. -/
theorem dangling_reference_crash :
    lookupId [] 5 = none ∧
    build_tree_from_file [⟨1, 0, [(5, ⟨0, 0, 1, 1⟩)]⟩] = none := by
  exact ⟨rfl, rfl⟩

/- ------------------------------------------------------------------ -/
/- k-NN engine (k_nearest_neighbors.cpp)                               -/
/- ------------------------------------------------------------------ -/

/-- `PQEntry`: an R-tree node together with its `min_dist` (squared) from
the query point. -/
@[reducible] def PQE : Type := RTree × ℚ

/-- One pop of `std::priority_queue<PQEntry, vector, greater>`: an entry of
minimal distance is removed.  Which of several equal-distance entries wins
is unspecified by the C++ standard; every property proved below holds for
any choice, and the model takes the first minimal entry. -/
def popMin : List PQE → Option (PQE × List PQE)
  | [] => none
  | x :: xs =>
    match popMin xs with
    | none => some (x, [])
    | some (m, rest) =>
      if x.2 ≤ m.2 then some (x, xs) else some (m, x :: rest)

/-- The best-first loop of `run_kn_queries`: while the queue is nonempty
and fewer than `k` leaves are collected, pop the minimum entry; expand an
internal node by pushing each child with its own `min_dist`; append a
leaf (with its distance, for the statements below — the source records the
id).  `fuel` bounds iterations; each iteration removes one node object from
the frontier, so the total node count suffices. -/
def knnLoop (qx qy : ℚ) (k : Nat) :
    Nat → List PQE → List ((Int × MBR) × ℚ) → List ((Int × MBR) × ℚ)
  | 0, _, acc => acc
  | fuel + 1, pq, acc =>
    if acc.length < k then
      match popMin pq with
      | none => acc
      | some ((t, d), rest) =>
        match t with
        | .leaf i m => knnLoop qx qy k fuel rest (acc ++ [((i, m), d)])
        | .internal _ _ _ cs =>
          knnLoop qx qy k fuel
            (rest ++ cs.toList.map (fun c => (c, minDistSq (rmbr c) qx qy)))
            acc
    else acc

/-- The popped leaves, with distances, of one k-NN query. -/
def knnLeaves (root : RTree) (qx qy : ℚ) (k : Nat) :
    List ((Int × MBR) × ℚ) :=
  knnLoop qx qy k (rsize root)
    [(root, minDistSq (rmbr root) qx qy)] []

/-- The id list printed for one k-NN query. -/
def kn_query (root : RTree) (qx qy : ℚ) (k : Nat) : List Int :=
  (knnLeaves root qx qy k).map (fun a => a.1.1)

/-- The multiset of leaves below the queue entries. -/
def pqLeavesM (pq : List PQE) : Multiset (Int × MBR) :=
  (pq : Multiset PQE).bind (fun e => (leaves e.1 : Multiset (Int × MBR)))

/-- Total node count in the queue: the termination measure. -/
def sizeSum (pq : List PQE) : Nat := (pq.map (fun e => rsize e.1)).sum

theorem popMin_eq_none {pq : List PQE} : popMin pq = none ↔ pq = [] := by
  cases pq with
  | nil => simp [popMin]
  | cons x xs =>
    simp only [popMin]
    constructor
    · intro h
      split at h <;> [cases h; skip]
      split at h <;> cases h
    · intro h
      cases h

theorem popMin_spec : ∀ {pq : List PQE} {x : PQE} {rest : List PQE},
    popMin pq = some (x, rest) →
    pq.Perm (x :: rest) ∧ ∀ y ∈ pq, x.2 ≤ y.2 := by
  intro pq
  induction pq with
  | nil => intro x rest h; cases h
  | cons a xs ih =>
    intro x rest h
    simp only [popMin] at h
    split at h
    · rename_i hnone
      rw [popMin_eq_none] at hnone
      subst hnone
      simp only [Option.some.injEq, Prod.mk.injEq] at h
      obtain ⟨rfl, rfl⟩ := h
      constructor
      · exact List.Perm.refl _
      · intro y hy
        simp only [List.mem_singleton] at hy
        subst hy
        exact le_refl _
    · rename_i m r hsome
      obtain ⟨hperm, hmin⟩ := ih hsome
      split at h
      · rename_i hle
        simp only [Option.some.injEq, Prod.mk.injEq] at h
        obtain ⟨rfl, rfl⟩ := h
        constructor
        · exact List.Perm.refl _
        · intro y hy
          rcases List.mem_cons.mp hy with rfl | hy
          · exact le_refl _
          · exact le_trans hle (hmin y hy)
      · rename_i hlt
        simp only [Option.some.injEq, Prod.mk.injEq] at h
        obtain ⟨rfl, rfl⟩ := h
        constructor
        · exact List.Perm.trans (List.Perm.cons a hperm)
            (List.Perm.swap _ _ _)
        · intro y hy
          rcases List.mem_cons.mp hy with rfl | hy
          · exact le_of_lt (not_le.mp hlt)
          · exact hmin y hy

theorem leavesL_eq_flatMap : ∀ cs : RTreeList,
    leavesL cs = cs.toList.flatMap leaves := by
  intro cs
  induction cs using rtreeListInduction with
  | hnil => rfl
  | hcons c t ih => simp [leavesL, RTreeList.toList, List.flatMap_cons, ih]

theorem rsizeL_eq_sum : ∀ cs : RTreeList,
    rsizeL cs = (cs.toList.map rsize).sum := by
  intro cs
  induction cs using rtreeListInduction with
  | hnil => rfl
  | hcons c t ih => simp [rsizeL, RTreeList.toList, ih]

theorem pqLeavesM_cons (e : PQE) (pq : List PQE) :
    pqLeavesM (e :: pq) = (leaves e.1 : Multiset (Int × MBR)) + pqLeavesM pq := by
  simp [pqLeavesM]

theorem pqLeavesM_append (l1 l2 : List PQE) :
    pqLeavesM (l1 ++ l2) = pqLeavesM l1 + pqLeavesM l2 := by
  simp [pqLeavesM]

theorem pqLeavesM_perm {l1 l2 : List PQE} (h : l1.Perm l2) :
    pqLeavesM l1 = pqLeavesM l2 := by
  simp [pqLeavesM, Multiset.coe_eq_coe.mpr h]

theorem sizeSum_perm {l1 l2 : List PQE} (h : l1.Perm l2) :
    sizeSum l1 = sizeSum l2 := (h.map _).sum_eq

theorem pqLeavesM_children (cs : RTreeList) (qx qy : ℚ) :
    pqLeavesM (cs.toList.map (fun c => (c, minDistSq (rmbr c) qx qy))) =
      (leavesL cs : Multiset (Int × MBR)) := by
  rw [leavesL_eq_flatMap]
  induction cs.toList with
  | nil => simp [pqLeavesM]
  | cons c t ih =>
    simp only [List.map_cons, List.flatMap_cons]
    rw [pqLeavesM_cons, ih, ← Multiset.coe_add]

theorem sizeSum_children (cs : RTreeList) (qx qy : ℚ) :
    sizeSum (cs.toList.map (fun c => (c, minDistSq (rmbr c) qx qy))) =
      rsizeL cs := by
  rw [rsizeL_eq_sum]
  simp only [sizeSum, List.map_map]
  rfl

theorem sizeSum_append (l1 l2 : List PQE) :
    sizeSum (l1 ++ l2) = sizeSum l1 + sizeSum l2 := by
  simp [sizeSum]

theorem sizeSum_pos_of_mem {pq : List PQE} (h : pq ≠ []) : 0 < sizeSum pq := by
  cases pq with
  | nil => exact absurd rfl h
  | cons e t =>
    have := rsize_pos e.1
    simp only [sizeSum, List.map_cons, List.sum_cons]
    omega

/-- Conservation: the popped leaves (beyond the accumulator) form a
sub-multiset of the leaves reachable from the queue. -/
theorem knnLoop_conserv (qx qy : ℚ) (k : Nat) : ∀ (fuel : Nat)
    (pq : List PQE) (acc : List ((Int × MBR) × ℚ)),
    sizeSum pq ≤ fuel →
    ∃ rem : Multiset (Int × MBR),
      ((knnLoop qx qy k fuel pq acc).map Prod.fst : Multiset (Int × MBR)) +
        rem = (acc.map Prod.fst : Multiset (Int × MBR)) + pqLeavesM pq := by
  intro fuel
  induction fuel with
  | zero =>
    intro pq acc hfuel
    have hpq : pq = [] := by
      by_contra hne
      have := sizeSum_pos_of_mem hne
      omega
    subst hpq
    refine ⟨0, ?_⟩
    simp [knnLoop, pqLeavesM]
  | succ fuel ih =>
    intro pq acc hfuel
    rw [knnLoop]
    by_cases hk : acc.length < k
    · rw [if_pos hk]
      cases hpop : popMin pq with
      | none =>
        rw [popMin_eq_none] at hpop
        subst hpop
        refine ⟨0, ?_⟩
        simp [pqLeavesM]
      | some v =>
        obtain ⟨⟨t, d⟩, rest⟩ := v
        obtain ⟨hperm, _⟩ := popMin_spec hpop
        have hsz : sizeSum pq = rsize t + sizeSum rest := by
          rw [sizeSum_perm hperm]
          simp [sizeSum]
        cases t with
        | leaf i m =>
          have hrec := ih rest (acc ++ [((i, m), d)]) (by
            have hp := rsize_pos (RTree.leaf i m)
            omega)
          obtain ⟨rem, hrem⟩ := hrec
          refine ⟨rem, ?_⟩
          rw [hrem, pqLeavesM_perm hperm, pqLeavesM_cons]
          simp only [leaves, List.map_append, List.map_cons, List.map_nil]
          rw [← Multiset.coe_add]
          abel
        | internal i m b cs =>
          have hrec := ih
            (rest ++ cs.toList.map (fun c => (c, minDistSq (rmbr c) qx qy)))
            acc (by
              rw [sizeSum_append, sizeSum_children]
              have hsz2 : rsize (RTree.internal i m b cs) = 1 + rsizeL cs :=
                rfl
              omega)
          obtain ⟨rem, hrem⟩ := hrec
          refine ⟨rem, ?_⟩
          rw [hrem, pqLeavesM_perm hperm, pqLeavesM_cons,
            pqLeavesM_append, pqLeavesM_children]
          have hlv : (leaves (RTree.internal i m b cs) :
              Multiset (Int × MBR)) =
              (leavesL cs : Multiset (Int × MBR)) := rfl
          rw [hlv]
          abel
    · rw [if_neg hk]
      exact ⟨pqLeavesM pq, rfl⟩

/-- A well-formed rectangle: `x_low ≤ x_high` and `y_low ≤ y_high` (true of
every MBR the loader computes, hence of every node of a loader tree). -/
def validMBR (m : MBR) : Prop := m.x_low ≤ m.x_high ∧ m.y_low ≤ m.y_high

/-- Every node of the tree carries a well-formed rectangle. -/
inductive ValidNodes : RTree → Prop
  | leaf (i : Int) (m : MBR) (h : validMBR m) : ValidNodes (.leaf i m)
  | internal (i : Int) (m : MBR) (b : Bool) (cs : RTreeList)
      (h : validMBR m) (hrec : ∀ c ∈ cs.toList, ValidNodes c) :
      ValidNodes (.internal i m b cs)

theorem validNodes_rmbr {t : RTree} (h : ValidNodes t) : validMBR (rmbr t) := by
  cases h with
  | leaf i m hm => exact hm
  | internal i m b cs hm _ => exact hm

theorem validNodes_leaves {t : RTree} (h : ValidNodes t) :
    ∀ l ∈ leaves t, validMBR l.2 := by
  induction h with
  | leaf i m hm =>
    intro l hl
    simp only [leaves, List.mem_singleton] at hl
    subst hl
    exact hm
  | internal i m b cs hm hrec ih =>
    intro l hl
    simp only [leaves] at hl
    rw [mem_leavesL] at hl
    obtain ⟨c, hcm, hlc⟩ := hl
    exact ih c hcm l hlc

/-- `min_dist` is antitone under containment, provided the inner rectangle
is well-formed: enlarging an MBR can only shrink its distance to a point. -/
theorem minDistSq_antitone {a b : MBR} (h : containsMBR a b)
    (hb : validMBR b) (qx qy : ℚ) :
    minDistSq a qx qy ≤ minDistSq b qx qy := by
  obtain ⟨h1, h2, h3, h4⟩ := h
  obtain ⟨hb1, hb2⟩ := hb
  rw [minDistSq_eq_axis, minDistSq_eq_axis]
  have hx : axisDist a.x_low a.x_high qx ≤ axisDist b.x_low b.x_high qx ∧
      0 ≤ axisDist a.x_low a.x_high qx := by
    unfold axisDist
    split_ifs <;> constructor <;> linarith
  have hy : axisDist a.y_low a.y_high qy ≤ axisDist b.y_low b.y_high qy ∧
      0 ≤ axisDist a.y_low a.y_high qy := by
    unfold axisDist
    split_ifs <;> constructor <;> linarith
  have hx2 := mul_self_le_mul_self hx.2 hx.1
  have hy2 := mul_self_le_mul_self hy.2 hy.1
  linarith

/-- The admissibility bound of best-first search: the `min_dist` of a node
lower-bounds the `min_dist` of every leaf below it. -/
theorem entry_le_leaf {t : RTree} (hc : ContainsInv t) (hv : ValidNodes t)
    (qx qy : ℚ) :
    ∀ l ∈ leaves t, minDistSq (rmbr t) qx qy ≤ minDistSq l.2 qx qy :=
  fun l hl => minDistSq_antitone (leaf_mbr_contained hc l hl)
    (validNodes_leaves hv l hl) qx qy

/-- Full characterization of the best-first loop under the search
invariants: the result extends the accumulator to `min k (total leaves)`
elements, records correct distances, is non-decreasing in distance, and
together with some remainder multiset accounts exactly for all reachable
leaves, every remaining leaf being at least as far as every result. -/
theorem knnLoop_spec (qx qy : ℚ) (k : Nat) : ∀ (fuel : Nat) (pq : List PQE)
    (acc : List ((Int × MBR) × ℚ)),
    sizeSum pq ≤ fuel →
    (∀ e ∈ pq, e.2 = minDistSq (rmbr e.1) qx qy ∧ ContainsInv e.1 ∧
      ValidNodes e.1) →
    (∀ a ∈ acc, a.2 = minDistSq a.1.2 qx qy) →
    ((acc.map Prod.snd).Chain' (· ≤ ·)) →
    (∀ a ∈ acc, ∀ e ∈ pq, a.2 ≤ e.2) →
    acc.length ≤ k →
    (knnLoop qx qy k fuel pq acc).length =
      min k (acc.length + Multiset.card (pqLeavesM pq)) ∧
    (∀ a ∈ knnLoop qx qy k fuel pq acc, a.2 = minDistSq a.1.2 qx qy) ∧
    ((knnLoop qx qy k fuel pq acc).map Prod.snd).Chain' (· ≤ ·) ∧
    ∃ rem : Multiset (Int × MBR),
      ((knnLoop qx qy k fuel pq acc).map Prod.fst :
        Multiset (Int × MBR)) + rem =
        (acc.map Prod.fst : Multiset (Int × MBR)) + pqLeavesM pq ∧
      ∀ l ∈ rem, ∀ a ∈ knnLoop qx qy k fuel pq acc,
        a.2 ≤ minDistSq l.2 qx qy := by
  intro fuel
  induction fuel with
  | zero =>
    intro pq acc hfuel hI1 hI2 hI3 hI4 hI5
    have hpq : pq = [] := by
      by_contra hne
      have := sizeSum_pos_of_mem hne
      omega
    subst hpq
    simp only [knnLoop]
    refine ⟨?_, hI2, hI3, 0, ?_, ?_⟩
    · have : pqLeavesM [] = 0 := rfl
      rw [this]
      simp [Nat.min_eq_right hI5]
    · have : pqLeavesM [] = 0 := rfl
      rw [this]
    · intro l hl
      exact absurd hl (Multiset.not_mem_zero l)
  | succ fuel ih =>
    intro pq acc hfuel hI1 hI2 hI3 hI4 hI5
    rw [knnLoop]
    by_cases hk : acc.length < k
    · rw [if_pos hk]
      cases hpop : popMin pq with
      | none =>
        rw [popMin_eq_none] at hpop
        subst hpop
        refine ⟨?_, hI2, hI3, 0, ?_, ?_⟩
        · have : pqLeavesM [] = 0 := rfl
          rw [this]
          simp [Nat.min_eq_right hI5]
        · have : pqLeavesM [] = 0 := rfl
          rw [this]
        · intro l hl
          exact absurd hl (Multiset.not_mem_zero l)
      | some v =>
        obtain ⟨⟨t, d⟩, rest⟩ := v
        obtain ⟨hperm, hmin⟩ := popMin_spec hpop
        have hmem_td : (t, d) ∈ pq :=
          hperm.symm.subset (List.mem_cons_self _ _)
        have hrest_sub : ∀ e ∈ rest, e ∈ pq := fun e he =>
          hperm.symm.subset (List.mem_cons_of_mem _ he)
        obtain ⟨htd_dist, htd_inv, htd_val⟩ := hI1 (t, d) hmem_td
        dsimp only at htd_dist htd_inv htd_val
        have hsz : sizeSum pq = rsize t + sizeSum rest := by
          rw [sizeSum_perm hperm]
          simp [sizeSum]
        have hcardM : Multiset.card (pqLeavesM pq) =
            Multiset.card ((leaves t : Multiset (Int × MBR))) +
              Multiset.card (pqLeavesM rest) := by
          rw [pqLeavesM_perm hperm, pqLeavesM_cons, Multiset.card_add]
        cases t with
        | leaf i m =>
          have hd_eq : d = minDistSq m qx qy := htd_dist
          have hrec := ih rest (acc ++ [((i, m), d)])
            (by
              have hp := rsize_pos (RTree.leaf i m)
              omega)
            (fun e he => hI1 e (hrest_sub e he))
            (by
              intro a ha
              rcases List.mem_append.mp ha with ha | ha
              · exact hI2 a ha
              · simp only [List.mem_singleton] at ha
                subst ha
                exact hd_eq)
            (by
              rw [List.map_append]
              rw [List.chain'_append]
              refine ⟨hI3, List.chain'_singleton _, ?_⟩
              intro x hx y hy
              simp only [List.map_cons, List.map_nil, List.head?_cons,
                Option.mem_def, Option.some.injEq] at hy
              subst hy
              obtain ⟨hne, hxe⟩ := List.mem_getLast?_eq_getLast hx
              have hxmem : x ∈ acc.map Prod.snd := by
                rw [hxe]
                exact List.getLast_mem _
              obtain ⟨a, ha, rfl⟩ := List.mem_map.mp hxmem
              exact hI4 a ha (RTree.leaf i m, d) hmem_td)
            (by
              intro a ha e he
              rcases List.mem_append.mp ha with ha | ha
              · exact hI4 a ha e (hrest_sub e he)
              · simp only [List.mem_singleton] at ha
                subst ha
                exact hmin e (hrest_sub e he))
            (by
              rw [List.length_append]
              simp only [List.length_singleton]
              omega)
          obtain ⟨hlen, hdist, hchain, rem, hcons, hbound⟩ := hrec
          refine ⟨?_, hdist, hchain, rem, ?_, hbound⟩
          · rw [hlen, hcardM]
            have : Multiset.card ((leaves (RTree.leaf i m) :
                Multiset (Int × MBR))) = 1 := rfl
            rw [this]
            rw [List.length_append]
            simp only [List.length_singleton]
            omega
          · rw [hcons, pqLeavesM_perm hperm, pqLeavesM_cons]
            simp only [leaves, List.map_append, List.map_cons, List.map_nil]
            rw [← Multiset.coe_add]
            abel
        | internal i m b cs =>
          have hchildren : ∀ c ∈ cs.toList,
              containsMBR m (rmbr c) ∧ ContainsInv c ∧ ValidNodes c := by
            intro c hcm
            cases htd_inv with
            | internal _ _ _ _ hcont hrec =>
              cases htd_val with
              | internal _ _ _ _ _ hvrec =>
                exact ⟨hcont c hcm, hrec c hcm, hvrec c hcm⟩
          have hd_le_child : ∀ c ∈ cs.toList,
              d ≤ minDistSq (rmbr c) qx qy := by
            intro c hcm
            rw [htd_dist]
            exact minDistSq_antitone (hchildren c hcm).1
              (validNodes_rmbr (hchildren c hcm).2.2) qx qy
          have hrec := ih
            (rest ++ cs.toList.map (fun c => (c, minDistSq (rmbr c) qx qy)))
            acc
            (by
              rw [sizeSum_append, sizeSum_children]
              have hsz2 : rsize (RTree.internal i m b cs) = 1 + rsizeL cs :=
                rfl
              omega)
            (by
              intro e he
              rcases List.mem_append.mp he with he | he
              · exact hI1 e (hrest_sub e he)
              · obtain ⟨c, hcm, rfl⟩ := List.mem_map.mp he
                exact ⟨rfl, (hchildren c hcm).2.1, (hchildren c hcm).2.2⟩)
            hI2 hI3
            (by
              intro a ha e he
              rcases List.mem_append.mp he with he | he
              · exact hI4 a ha e (hrest_sub e he)
              · obtain ⟨c, hcm, rfl⟩ := List.mem_map.mp he
                exact le_trans (hI4 a ha (RTree.internal i m b cs, d)
                  hmem_td) (hd_le_child c hcm))
            hI5
          obtain ⟨hlen, hdist, hchain, rem, hcons, hbound⟩ := hrec
          refine ⟨?_, hdist, hchain, rem, ?_, hbound⟩
          · rw [hlen, hcardM, pqLeavesM_append, pqLeavesM_children,
              Multiset.card_add]
            have hlv : (leaves (RTree.internal i m b cs) :
                Multiset (Int × MBR)) = (leavesL cs : Multiset (Int × MBR)) :=
              rfl
            rw [hlv]
            omega
          · rw [hcons, pqLeavesM_perm hperm, pqLeavesM_cons,
              pqLeavesM_append, pqLeavesM_children]
            have hlv : (leaves (RTree.internal i m b cs) :
                Multiset (Int × MBR)) = (leavesL cs : Multiset (Int × MBR)) :=
              rfl
            rw [hlv]
            abel
    · rw [if_neg hk]
      have hlenk : acc.length = k := by omega
      refine ⟨?_, hI2, hI3, pqLeavesM pq, rfl, ?_⟩
      · rw [hlenk]
        simp
      · intro l hl a ha
        rw [pqLeavesM] at hl
        rw [Multiset.mem_bind] at hl
        obtain ⟨e, hem, hle⟩ := hl
        rw [Multiset.mem_coe] at hem
        rw [Multiset.mem_coe] at hle
        obtain ⟨hed, hec, hev⟩ := hI1 e hem
        calc a.2 ≤ e.2 := hI4 a ha e hem
          _ = minDistSq (rmbr e.1) qx qy := hed
          _ ≤ minDistSq l.2 qx qy := entry_le_leaf hec hev qx qy l hle

theorem pqLeavesM_single (root : RTree) (d : ℚ) :
    pqLeavesM [(root, d)] = (leaves root : Multiset (Int × MBR)) := by
  rw [pqLeavesM_cons]
  have h0 : pqLeavesM [] = 0 := rfl
  rw [h0]
  simp

theorem sizeSum_single (root : RTree) (d : ℚ) :
    sizeSum [(root, d)] = rsize root := by
  simp [sizeSum]

/-- **C1.** For every tree satisfying the loader invariants — each internal
node's MBR contains its children's MBRs (`ContainsInv`) and every node
rectangle is well-formed (`ValidNodes`, true of every loader tree) — and
every query point, the k-NN search returns `min k (number of leaves)` leaf
ids; each popped leaf is recorded with its true `min_dist` (squared — the
real square root is strictly monotone, so all comparisons agree); the
popped sequence is non-decreasing in `min_dist`; the popped leaves form a
sub-multiset of the tree's leaves; and every leaf not returned is at least
as far from the query point as every returned leaf — i.e. the returned
ids are exactly the true `k` nearest leaves by `min_dist`, up to the choice
among equally distant leaves at the cut-off. -/
theorem knn_correct (root : RTree) (qx qy : ℚ) (k : Nat)
    (hinv : ContainsInv root) (hval : ValidNodes root) :
    (kn_query root qx qy k).length = min k (leaves root).length ∧
    (∀ a ∈ knnLeaves root qx qy k, a.2 = minDistSq a.1.2 qx qy) ∧
    ((knnLeaves root qx qy k).map Prod.snd).Chain' (· ≤ ·) ∧
    ∃ rem : Multiset (Int × MBR),
      ((knnLeaves root qx qy k).map Prod.fst : Multiset (Int × MBR)) + rem =
        (leaves root : Multiset (Int × MBR)) ∧
      ∀ l ∈ rem, ∀ a ∈ knnLeaves root qx qy k,
        a.2 ≤ minDistSq l.2 qx qy := by
  have h := knnLoop_spec qx qy k (rsize root)
    [(root, minDistSq (rmbr root) qx qy)] []
    (by rw [sizeSum_single])
    (by
      intro e he
      simp only [List.mem_singleton] at he
      subst he
      exact ⟨rfl, hinv, hval⟩)
    (by intro a ha; cases ha)
    (by simp)
    (by intro a ha; cases ha)
    (by simp)
  obtain ⟨hlen, hdist, hchain, rem, hcons, hbound⟩ := h
  rw [pqLeavesM_single] at hlen hcons
  refine ⟨?_, hdist, hchain, rem, ?_, hbound⟩
  · rw [kn_query, List.length_map]
    rw [knnLeaves]
    rw [hlen]
    simp [Multiset.coe_card]
  · rw [knnLeaves]
    rw [hcons]
    simp

theorem demoTree_valid : ValidNodes demoTree := by
  show ValidNodes (.internal 10 ⟨0, 0, 6, 6⟩ true
    (.cons (.leaf 1 ⟨0, 0, 1, 1⟩) (.cons (.leaf 2 ⟨5, 5, 6, 6⟩)
      (.cons (.leaf 3 ⟨2, 2, 3, 3⟩) .nil))))
  refine ValidNodes.internal _ _ _ _ (by constructor <;> norm_num) ?_
  intro c hc
  simp only [RTreeList.toList, List.mem_cons, List.not_mem_nil,
    or_false] at hc
  rcases hc with rfl | rfl | rfl <;>
    exact ValidNodes.leaf _ _ (by constructor <;> norm_num)

/-- Witness for C1: the spec's three-entry scenario, query point `(0,0)`,
`k = 2` — ids `[1, 3]` in that order (squared distances `0` and `8`). -/
theorem knn_correct_witness :
    ((kn_query demoTree 0 0 2).length = min 2 (leaves demoTree).length ∧
     (∀ a ∈ knnLeaves demoTree 0 0 2, a.2 = minDistSq a.1.2 0 0) ∧
     ((knnLeaves demoTree 0 0 2).map Prod.snd).Chain' (· ≤ ·) ∧
     ∃ rem : Multiset (Int × MBR),
       ((knnLeaves demoTree 0 0 2).map Prod.fst : Multiset (Int × MBR)) +
         rem = (leaves demoTree : Multiset (Int × MBR)) ∧
       ∀ l ∈ rem, ∀ a ∈ knnLeaves demoTree 0 0 2,
         a.2 ≤ minDistSq l.2 0 0) ∧
    kn_query demoTree 0 0 2 = [1, 3] :=
  ⟨knn_correct demoTree 0 0 2 demoTree_inv demoTree_valid, by
    norm_num [kn_query, knnLeaves, knnLoop, popMin, minDistSq, demoTree,
      rsize, rsizeL, rmbr, RTreeList.toList]⟩

/- ------------------------------------------------------------------ -/
/- C10: duplicate ids in a k-NN answer                                 -/
/- ------------------------------------------------------------------ -/

/-- A tree in which every leaf occurs under exactly one parent, yet two
distinct leaf objects carry the same id `7` (nothing in the pipeline
forbids duplicate entry ids in the offsets file). -/
def dupTree : RTree :=
  .internal 0 ⟨0, 0, 1, 1⟩ true
    (.cons (.leaf 7 ⟨0, 0, 1, 1⟩) (.cons (.leaf 7 ⟨0, 0, 1, 1⟩) .nil))

/-- **C10 (counterexample).** On `dupTree` — a genuine tree, each leaf under
exactly one parent — the query `(0,0)`, `k = 2` returns the id `7` twice:
each *leaf object* is pushed and popped at most once, but two distinct
leaves may share an id, so the id list can repeat ids. -/
theorem knn_duplicate_ids :
    kn_query dupTree 0 0 2 = [7, 7] ∧
    ¬ (kn_query dupTree 0 0 2).Nodup := by
  have heval : kn_query dupTree 0 0 2 = [7, 7] := by
    norm_num [kn_query, knnLeaves, knnLoop, popMin, minDistSq, dupTree,
      rsize, rsizeL, rmbr, RTreeList.toList]
  refine ⟨heval, ?_⟩
  intro h
  rw [heval] at h
  simp at h

/-- **C10 (amended).** For every tree, query point and `k`: the popped
leaves form a sub-multiset of the tree's leaves (each leaf object is pushed
into the priority queue at most once, hence appended to the result at most
once); consequently, whenever the leaf *ids* of the tree are pairwise
distinct, the id list of a single k-NN query contains no id more than
once. -/
theorem knn_no_duplicates (root : RTree) (qx qy : ℚ) (k : Nat) :
    (∃ rem : Multiset (Int × MBR),
      ((knnLeaves root qx qy k).map Prod.fst : Multiset (Int × MBR)) + rem =
        (leaves root : Multiset (Int × MBR))) ∧
    (((leaves root).map Prod.fst).Nodup → (kn_query root qx qy k).Nodup) := by
  obtain ⟨rem, hrem⟩ := knnLoop_conserv qx qy k (rsize root)
    [(root, minDistSq (rmbr root) qx qy)] []
    (by rw [sizeSum_single])
  rw [pqLeavesM_single] at hrem
  simp only [List.map_nil] at hrem
  have hrem' : ((knnLeaves root qx qy k).map Prod.fst :
      Multiset (Int × MBR)) + rem = (leaves root : Multiset (Int × MBR)) := by
    rw [knnLeaves]
    rw [hrem]
    simp
  refine ⟨⟨rem, hrem'⟩, ?_⟩
  intro hnd
  have hle : ((knnLeaves root qx qy k).map Prod.fst :
      Multiset (Int × MBR)) ≤ (leaves root : Multiset (Int × MBR)) := by
    rw [← hrem']
    exact Multiset.le_add_right _ _
  have hsub := Multiset.coe_le.mp hle
  obtain ⟨u, hu1, hu2⟩ := hsub
  have hunodup : (u.map Prod.fst).Nodup := hnd.sublist (hu2.map Prod.fst)
  have hids : (((knnLeaves root qx qy k).map Prod.fst).map Prod.fst).Nodup :=
    ((hu1.map Prod.fst).nodup_iff).mp hunodup
  have h3 : kn_query root qx qy k =
      ((knnLeaves root qx qy k).map Prod.fst).map Prod.fst := by
    rw [kn_query, List.map_map]
    rfl
  rw [h3]
  exact hids

/-- Witness for the amended C10: the three-entry demo tree has distinct
leaf ids, and the 2-NN answer `[1, 3]` has no duplicates. -/
theorem knn_no_duplicates_witness :
    (∃ rem : Multiset (Int × MBR),
      ((knnLeaves demoTree 0 0 2).map Prod.fst : Multiset (Int × MBR)) +
        rem = (leaves demoTree : Multiset (Int × MBR))) ∧
    (kn_query demoTree 0 0 2).Nodup :=
  ⟨(knn_no_duplicates demoTree 0 0 2).1,
   (knn_no_duplicates demoTree 0 0 2).2 (by decide)⟩

/- ------------------------------------------------------------------ -/
/- C6: serialize → deserialize round trip                              -/
/- ------------------------------------------------------------------ -/

mutual

/-- The serialized tree as the file represents it: every MBR passed through
the formatting function, structure and ids untouched. -/
def mapMBR (ρ : ℚ → ℚ) : RTree → RTree
  | .leaf i m => .leaf i (roundMBR ρ m)
  | .internal i m b cs => .internal i (roundMBR ρ m) b (mapMBRL ρ cs)

def mapMBRL (ρ : ℚ → ℚ) : RTreeList → RTreeList
  | .nil => .nil
  | .cons c cs => .cons (mapMBR ρ c) (mapMBRL ρ cs)

end

theorem mapMBRL_ofList (ρ : ℚ → ℚ) : ∀ l : List RTree,
    mapMBRL ρ (RTreeList.ofList l) = RTreeList.ofList (l.map (mapMBR ρ))
  | [] => rfl
  | c :: t => by
    simp only [RTreeList.ofList, mapMBRL, List.map_cons, mapMBRL_ofList ρ t]

theorem rid_mapMBR (ρ : ℚ → ℚ) : ∀ t : RTree, rid (mapMBR ρ t) = rid t
  | .leaf _ _ => rfl
  | .internal _ _ _ _ => rfl

theorem rmbr_mapMBR (ρ : ℚ → ℚ) : ∀ t : RTree,
    rmbr (mapMBR ρ t) = roundMBR ρ (rmbr t)
  | .leaf _ _ => rfl
  | .internal _ _ _ _ => rfl

mutual

theorem leaves_mapMBR (ρ : ℚ → ℚ) : ∀ t : RTree,
    leaves (mapMBR ρ t) = (leaves t).map (fun l => (l.1, roundMBR ρ l.2))
  | .leaf _ _ => rfl
  | .internal i m b cs => by
    simp only [mapMBR, leaves]
    exact leavesL_mapMBR ρ cs

theorem leavesL_mapMBR (ρ : ℚ → ℚ) : ∀ cs : RTreeList,
    leavesL (mapMBRL ρ cs) =
      (leavesL cs).map (fun l => (l.1, roundMBR ρ l.2))
  | .nil => rfl
  | .cons c cs => by
    simp only [mapMBRL, leavesL, List.map_append]
    rw [leaves_mapMBR ρ c, leavesL_mapMBR ρ cs]

end

/-- A monotone formatting function commutes with the min/max of
`update_parent_mbr`. -/
theorem update_parent_mbr_round (ρ : ℚ → ℚ) (hmono : Monotone ρ)
    (a b : MBR) :
    update_parent_mbr (roundMBR ρ a) (roundMBR ρ b) =
      roundMBR ρ (update_parent_mbr a b) := by
  apply mbr_eq <;>
    simp [update_parent_mbr, roundMBR, hmono.map_min, hmono.map_max]

theorem childrenUnion_round (ρ : ℚ → ℚ) (hmono : Monotone ρ) :
    ∀ (rest : List RTree) (first : MBR),
    childrenUnion (roundMBR ρ first) (rest.map (mapMBR ρ)) =
      roundMBR ρ (childrenUnion first rest) := by
  intro rest
  induction rest with
  | nil => intro first; rfl
  | cons c t ih =>
    intro first
    have h1 : childrenUnion (roundMBR ρ first) ((c :: t).map (mapMBR ρ)) =
        childrenUnion (update_parent_mbr (roundMBR ρ first)
          (rmbr (mapMBR ρ c))) (t.map (mapMBR ρ)) := rfl
    have h2 : childrenUnion first (c :: t) =
        childrenUnion (update_parent_mbr first (rmbr c)) t := rfl
    rw [h1, h2, rmbr_mapMBR, update_parent_mbr_round ρ hmono]
    exact ih _

/-- `mapMBR` of a loader node, with the MBR re-expressed as the union the
deserializer recomputes from the formatted children. -/
theorem mapMBR_mkInternal (ρ : ℚ → ℚ) (hmono : Monotone ρ) (i : Int)
    (flag : Bool) (c0 : RTree) (cr : List RTree) :
    mapMBR ρ (mkInternal i flag c0 cr) =
      RTree.internal i
        (childrenUnion (rmbr (mapMBR ρ c0)) (cr.map (mapMBR ρ))) flag
        (RTreeList.ofList ((c0 :: cr).map (mapMBR ρ))) := by
  simp only [mkInternal, mapMBR, mapMBRL_ofList]
  rw [← childrenUnion_round ρ hmono, ← rmbr_mapMBR]

theorem lookupId_cons_self (m : List (Int × RTree)) (i : Int) (t : RTree) :
    lookupId ((i, t) :: m) i = some t := by
  simp [lookupId, List.find?]

theorem lookupId_cons_ne (m : List (Int × RTree)) (i j : Int) (t : RTree)
    (h : i ≠ j) : lookupId ((i, t) :: m) j = lookupId m j := by
  have hb : ((i : Int) == j) = false := by
    simp [h]
  simp [lookupId, List.find?, hb]

/-- Resolution of a serialized child list against a map that already binds
every child id to its formatted copy. -/
theorem resolveKids_map (ρ : ℚ → ℚ) (m : List (Int × RTree)) :
    ∀ cl : List RTree,
    (∀ c ∈ cl, lookupId m (rid c) = some (mapMBR ρ c)) →
    resolveKids (cl.map (fun c => (rid c, roundMBR ρ (rmbr c)))) m =
      some (cl.map (mapMBR ρ)) := by
  intro cl
  induction cl with
  | nil => intro _; rfl
  | cons c t ih =>
    intro hl
    simp only [List.map_cons, resolveKids,
      hl c (List.mem_cons_self c t),
      ih (fun x hx => hl x (List.mem_cons_of_mem c hx))]

theorem serializeLine_mkInternal (ρ : ℚ → ℚ) (i : Int) (flag : Bool)
    (c0 : RTree) (cr : List RTree) :
    serializeLine ρ (mkInternal i flag c0 cr) =
      ⟨if flag then 0 else 1, i,
        (c0 :: cr).map (fun c => (rid c, roundMBR ρ (rmbr c)))⟩ := by
  simp [mkInternal, serializeLine, RTreeList.toList_ofList]

/-- `desStep` on a line with flag digit `1`: children resolved by id. -/
theorem desStep_nonleaf (M : List (Int × RTree)) (r : Option RTree)
    (i : Int) (kids : List (Int × MBR)) :
    desStep (M, r) ⟨1, i, kids⟩ =
      match resolveKids kids M with
      | none => none
      | some [] => none
      | some (c0 :: rest) => some ((i, RTree.internal i
          (childrenUnion (rmbr c0) rest) false
          (RTreeList.ofList (c0 :: rest))) :: M,
        some (RTree.internal i (childrenUnion (rmbr c0) rest) false
          (RTreeList.ofList (c0 :: rest)))) := rfl

/-- `desStep` on a line with flag digit `0`: children synthesized as
leaves from the embedded ids and MBRs. -/
theorem desStep_leafline (M : List (Int × RTree)) (r : Option RTree)
    (i : Int) (kids : List (Int × MBR)) (c0 : RTree) (rest : List RTree)
    (hk : kids.map (fun p => RTree.leaf p.1 p.2) = c0 :: rest) :
    desStep (M, r) ⟨0, i, kids⟩ =
      some ((i, RTree.internal i
          (childrenUnion (rmbr c0) rest) true
          (RTreeList.ofList (c0 :: rest))) :: M,
        some (RTree.internal i (childrenUnion (rmbr c0) rest) true
          (RTreeList.ofList (c0 :: rest)))) := by
  cases kids with
  | nil => simp at hk
  | cons p ps =>
    rw [List.map_cons, List.cons.injEq] at hk
    obtain ⟨h1, h2⟩ := hk
    subst h1
    subst h2
    rfl

/-- One deserialization step on the serialized form of a loader node
reconstructs exactly the formatted copy of that node. -/
theorem desStep_level (ρ : ℚ → ℚ) (hmono : Monotone ρ) (flag : Bool)
    (M : List (Int × RTree)) (r : Option RTree) (i : Int) (c0 : RTree)
    (cr : List RTree)
    (hleafcase : flag = true → ∀ c ∈ c0 :: cr,
      ∃ li lm, c = RTree.leaf li lm)
    (hmapcase : flag = false → ∀ c ∈ c0 :: cr,
      lookupId M (rid c) = some (mapMBR ρ c)) :
    desStep (M, r) (serializeLine ρ (mkInternal i flag c0 cr)) =
      some ((i, mapMBR ρ (mkInternal i flag c0 cr)) :: M,
        some (mapMBR ρ (mkInternal i flag c0 cr))) := by
  rw [serializeLine_mkInternal, mapMBR_mkInternal ρ hmono]
  cases flag with
  | true =>
    have h01 : (if (true : Bool) then (0 : Nat) else 1) = 0 := rfl
    have hch : ((c0 :: cr).map (fun c => ((rid c : Int),
        roundMBR ρ (rmbr c)))).map (fun p => RTree.leaf p.1 p.2) =
        mapMBR ρ c0 :: cr.map (mapMBR ρ) := by
      rw [List.map_map, ← List.map_cons]
      refine List.map_congr_left ?_
      intro c hc
      obtain ⟨li, lm, hc'⟩ := hleafcase rfl c hc
      subst hc'
      rfl
    rw [h01, desStep_leafline M r i _ _ _ hch]
    simp only [List.map_cons]
  | false =>
    have h01 : (if (false : Bool) then (0 : Nat) else 1) = 1 := rfl
    have hres := resolveKids_map ρ M (c0 :: cr) (hmapcase rfl)
    rw [h01, desStep_nonleaf, hres]
    simp only [List.map_cons]

theorem deserializeRun_append : ∀ (l1 l2 : List Line)
    (st : List (Int × RTree) × Option RTree),
    deserializeRun (l1 ++ l2) st =
      match deserializeRun l1 st with
      | none => none
      | some st' => deserializeRun l2 st'
  | [], l2, st => rfl
  | ln :: r1, l2, st => by
    simp only [List.cons_append, deserializeRun]
    cases desStep st ln with
    | none => rfl
    | some st' => exact deserializeRun_append r1 l2 st'

/-- Deserializing the serialized lines of one freshly built level: starting
from a map that binds every (strictly older) child id to its formatted
copy, the run succeeds, ends with the formatted last node of the level as
current root, binds every node of the level to its formatted copy, and
leaves all other lookups unchanged. -/
theorem deserialize_level (ρ : ℚ → ℚ) (hmono : Monotone ρ) (flag : Bool)
    (idLow : Int) :
    ∀ (ns : List RTree) (M : List (Int × RTree)) (r : Option RTree),
    (∀ n ∈ ns, ∃ c0 cr, n = mkInternal (rid n) flag c0 cr ∧
      (flag = true → ∀ c ∈ c0 :: cr, ∃ li lm, c = RTree.leaf li lm) ∧
      (flag = false → ∀ c ∈ c0 :: cr, rid c < idLow ∧
        lookupId M (rid c) = some (mapMBR ρ c))) →
    (∀ n ∈ ns, idLow ≤ rid n) →
    (ns.map rid).Nodup →
    ∀ hne : ns ≠ [],
    ∃ M', deserializeRun (ns.map (serializeLine ρ)) (M, r) =
        some (M', some (mapMBR ρ (ns.getLast hne))) ∧
      (∀ n ∈ ns, lookupId M' (rid n) = some (mapMBR ρ n)) ∧
      (∀ i : Int, i ∉ ns.map rid → lookupId M' i = lookupId M i) := by
  intro ns
  induction ns with
  | nil => intro M r _ _ _ hne; exact absurd rfl hne
  | cons n rest ih =>
    intro M r hshape hge hnodup hne
    obtain ⟨c0, cr, hn, hleafcase, hmapcase⟩ :=
      hshape n (List.mem_cons_self n rest)
    have hstep : desStep (M, r) (serializeLine ρ n) =
        some ((rid n, mapMBR ρ n) :: M, some (mapMBR ρ n)) := by
      have h0 := desStep_level ρ hmono flag M r (rid n) c0 cr hleafcase
        (fun hf c hc => (hmapcase hf c hc).2)
      rw [← hn] at h0
      exact h0
    have hrun1 : deserializeRun ((n :: rest).map (serializeLine ρ)) (M, r) =
        deserializeRun (rest.map (serializeLine ρ))
          ((rid n, mapMBR ρ n) :: M, some (mapMBR ρ n)) := by
      simp only [List.map_cons, deserializeRun, hstep]
    have hnodup1 : rid n ∉ rest.map rid := by
      simp only [List.map_cons, List.nodup_cons] at hnodup
      exact hnodup.1
    cases rest with
    | nil =>
      refine ⟨(rid n, mapMBR ρ n) :: M, ?_, ?_, ?_⟩
      · rw [hrun1]
        rfl
      · intro n' hn'
        rw [List.mem_singleton] at hn'
        subst hn'
        exact lookupId_cons_self M (rid n') (mapMBR ρ n')
      · intro i hi
        simp only [List.map_cons, List.map_nil, List.mem_singleton] at hi
        exact lookupId_cons_ne M (rid n) i (mapMBR ρ n)
          (fun habs => hi habs.symm)
    | cons m rest2 =>
      have hne2 : (m :: rest2) ≠ [] := List.cons_ne_nil m rest2
      have hgen : idLow ≤ rid n := hge n (List.mem_cons_self _ _)
      have hshape2 : ∀ n' ∈ m :: rest2, ∃ c0' cr',
          n' = mkInternal (rid n') flag c0' cr' ∧
          (flag = true → ∀ c ∈ c0' :: cr', ∃ li lm, c = RTree.leaf li lm) ∧
          (flag = false → ∀ c ∈ c0' :: cr', rid c < idLow ∧
            lookupId ((rid n, mapMBR ρ n) :: M) (rid c) =
              some (mapMBR ρ c)) := by
        intro n' hn'
        obtain ⟨c0', cr', he, hl, hm2⟩ :=
          hshape n' (List.mem_cons_of_mem n hn')
        refine ⟨c0', cr', he, hl, ?_⟩
        intro hf c hc
        obtain ⟨hlt, hlook⟩ := hm2 hf c hc
        refine ⟨hlt, ?_⟩
        rw [lookupId_cons_ne M (rid n) (rid c) (mapMBR ρ n)
          (by omega)]
        exact hlook
      have hge2 : ∀ n' ∈ m :: rest2, idLow ≤ rid n' :=
        fun n' hn' => hge n' (List.mem_cons_of_mem n hn')
      have hnodup2 : ((m :: rest2).map rid).Nodup := by
        rw [List.map_cons, List.nodup_cons] at hnodup
        exact hnodup.2
      obtain ⟨M', hrunL, hlookL, hpresL⟩ :=
        ih ((rid n, mapMBR ρ n) :: M) (some (mapMBR ρ n)) hshape2 hge2
          hnodup2 hne2
      refine ⟨M', ?_, ?_, ?_⟩
      · rw [hrun1]
        exact hrunL
      · intro n' hn'
        rcases List.mem_cons.mp hn' with he | htail
        · subst he
          rw [hpresL (rid n') hnodup1]
          exact lookupId_cons_self M (rid n') (mapMBR ρ n')
        · exact hlookL n' htail
      · intro i hi
        rw [List.map_cons, List.mem_cons, not_or] at hi
        obtain ⟨hi1, hi2⟩ := hi
        rw [hpresL i hi2]
        exact lookupId_cons_ne M (rid n) i (mapMBR ρ n) (Ne.symm hi1)

/-- Round-trip invariant carried through the level-building loop: if the
lines accumulated so far deserialize to state `(M, r)` with every current
node bound to its formatted copy (or the current nodes are the initial
leaves and nothing was written yet), then the final file deserializes with
the formatted root as the node of the last line. -/
theorem build_loop_roundtrip (ρ : ℚ → ℚ) (hmono : Monotone ρ) :
    ∀ (fuel : Nat) (nodes : List RTree) (nid : Int) (acc : List Line)
    (root : RTree) (lines : List Line) (M : List (Int × RTree))
    (r : Option RTree),
    build_tree_loop ρ fuel nodes nid acc = some (root, lines) →
    deserializeRun acc ([], none) = some (M, r) →
    ((nid = 0 ∧ (∀ n ∈ nodes, ∃ li lm, n = RTree.leaf li lm)) ∨
     (1 ≤ nid ∧
       (∀ n ∈ nodes, rid n < nid ∧
         lookupId M (rid n) = some (mapMBR ρ n)) ∧
       ∃ hne : nodes ≠ [], r = some (mapMBR ρ (nodes.getLast hne)))) →
    ∃ M', deserializeRun lines ([], none) =
      some (M', some (mapMBR ρ root)) := by
  intro fuel
  induction fuel with
  | zero =>
    intro nodes nid acc root lines M r h hacc hinv
    by_cases hlen : nodes.length ≤ 1
    · obtain ⟨i, m, b, cs, hnodes, hroot, hlines⟩ :=
        build_tree_loop_short hlen h
      subst hlines
      rcases hinv with ⟨_, hleaves⟩ | ⟨_, _, hne0, hr0⟩
      · exfalso
        obtain ⟨li, lm, habs⟩ := hleaves root
          (by rw [hnodes, hroot]; exact List.mem_singleton_self _)
        rw [hroot] at habs
        exact RTree.noConfusion habs
      · subst hnodes
        refine ⟨M, ?_⟩
        rw [hacc, hr0, hroot]
        rfl
    · rw [build_tree_loop.eq_def, if_neg hlen] at h
      exact Option.noConfusion h
  | succ fuel ih =>
    intro nodes nid acc root lines M r h hacc hinv
    by_cases hlen : nodes.length ≤ 1
    · obtain ⟨i, m, b, cs, hnodes, hroot, hlines⟩ :=
        build_tree_loop_short hlen h
      subst hlines
      rcases hinv with ⟨_, hleaves⟩ | ⟨_, _, hne0, hr0⟩
      · exfalso
        obtain ⟨li, lm, habs⟩ := hleaves root
          (by rw [hnodes, hroot]; exact List.mem_singleton_self _)
        rw [hroot] at habs
        exact RTree.noConfusion habs
      · subst hnodes
        refine ⟨M, ?_⟩
        rw [hacc, hr0, hroot]
        rfl
    · rw [build_tree_loop.eq_def, if_neg hlen] at h
      split at h
      · exact Option.noConfusion h
      · rename_i fuel2 hfuel2
        have hfe : fuel2 = fuel := by omega
        subst hfe
        split at h
        · exact Option.noConfusion h
        · rename_i next nid2 hcu
          have hlen2 : 2 ≤ nodes.length := by omega
          obtain ⟨hneN, hnid2, hids, hforall⟩ :=
            create_upper_level_spec hcu hlen2
          have hidmem : ∀ n ∈ next, nid ≤ rid n ∧ rid n < nid2 := by
            intro n hnn
            have hm : rid n ∈ next.map rid := List.mem_map_of_mem rid hnn
            rw [hids] at hm
            simp only [List.mem_map, List.mem_range] at hm
            obtain ⟨j, hj, hje⟩ := hm
            have hjlt : (j : Int) < (next.length : Int) := by
              exact_mod_cast hj
            omega
          have hnodupN : (next.map rid).Nodup := by
            rw [hids]
            refine List.Nodup.map ?_ (List.nodup_range _)
            intro a b hab
            have hab' : nid + (a : Int) = nid + (b : Int) := hab
            omega
          have hshape : ∀ n ∈ next, ∃ c0 cr,
              n = mkInternal (rid n) (nid == 0) c0 cr ∧
              ((nid == 0) = true → ∀ c ∈ c0 :: cr,
                ∃ li lm, c = RTree.leaf li lm) ∧
              ((nid == 0) = false → ∀ c ∈ c0 :: cr, rid c < nid ∧
                lookupId M (rid c) = some (mapMBR ρ c)) := by
            intro n hnn
            obtain ⟨c0, cr, heq, _, _, hmem⟩ := hforall n hnn
            refine ⟨c0, cr, heq, ?_, ?_⟩
            · intro hflag c hc
              rcases hinv with ⟨_, hleaves⟩ | ⟨hnid1, _, _⟩
              · exact hleaves c (hmem c hc)
              · simp only [beq_iff_eq] at hflag
                omega
            · intro hflag c hc
              rcases hinv with ⟨hnid0, _⟩ | ⟨_, hlook, _⟩
              · subst hnid0
                simp at hflag
              · exact hlook c (hmem c hc)
          obtain ⟨M1, hrunL, hlookL, _⟩ :=
            deserialize_level ρ hmono (nid == 0) nid next M r hshape
              (fun n hnn => (hidmem n hnn).1) hnodupN hneN
          have hrun' : deserializeRun (acc ++ next.map (serializeLine ρ))
              ([], none) =
              some (M1, some (mapMBR ρ (next.getLast hneN))) := by
            rw [deserializeRun_append, hacc]
            exact hrunL
          refine ih next nid2 (acc ++ next.map (serializeLine ρ)) root
            lines M1 (some (mapMBR ρ (next.getLast hneN))) h hrun'
            (Or.inr ⟨?_, ?_, hneN, rfl⟩)
          · have hpos : 0 < next.length := List.length_pos.mpr hneN
            rcases hinv with ⟨hnid0, _⟩ | ⟨hnid1, _, _⟩ <;> omega
          · intro n hnn
            exact ⟨(hidmem n hnn).2, hlookL n hnn⟩

/-- **C6.**  Serialize→deserialize round trip.  If the bulk load succeeds,
returning `root` and writing `lines`, and the 6-decimal formatting function
`ρ` is monotone (true of rounding to a fixed number of decimals), then
`build_tree_from_file` on those lines succeeds and returns precisely
`mapMBR ρ root`: the serialized tree with every MBR replaced by its
formatted copy and everything else — node ids, child sets at every node,
the flag — unchanged, taken from the node of the last line.  In
particular node ids (second conjunct) and the leaf id set (third conjunct)
are identical, and every MBR agrees with the original to formatting
precision.  The MBRs the deserializer recomputes as unions of the
children's formatted MBRs coincide with the formatted originals because a
monotone `ρ` commutes with the min/max of `update_parent_mbr`. -/
theorem serialize_roundtrip (ρ : ℚ → ℚ) (hmono : Monotone ρ)
    (entries : List Entry) (root : RTree) (lines : List Line)
    (h : build_tree ρ entries = some (root, lines)) :
    build_tree_from_file lines = some (some (mapMBR ρ root)) ∧
    rid (mapMBR ρ root) = rid root ∧
    leaves (mapMBR ρ root) =
      (leaves root).map (fun l => (l.1, roundMBR ρ l.2)) := by
  refine ⟨?_, rid_mapMBR ρ root, leaves_mapMBR ρ root⟩
  have hleafshape : ∀ n ∈ build_leaf_nodes entries,
      ∃ li lm, n = RTree.leaf li lm := by
    intro n hn
    simp only [build_leaf_nodes, List.mem_map] at hn
    obtain ⟨e, _, rfl⟩ := hn
    exact ⟨_, _, rfl⟩
  obtain ⟨M', hrun⟩ := build_loop_roundtrip ρ hmono entries.length
    (build_leaf_nodes entries) 0 [] root lines [] none h rfl
    (Or.inl ⟨rfl, hleafshape⟩)
  simp only [build_tree_from_file, hrun]

/-- Witness for C6: the two-entry load writes one line, and deserializing
that line returns the formatted copy of the built root. -/
theorem serialize_roundtrip_witness :
    Monotone (id : ℚ → ℚ) ∧
    build_tree_from_file
        [⟨0, 0, [(1, ⟨0, 0, 1, 1⟩), (2, ⟨2, 2, 3, 3⟩)]⟩] =
      some (some (mapMBR id (RTree.internal 0 ⟨0, 0, 3, 3⟩ true
        (RTreeList.ofList [RTree.leaf 1 ⟨0, 0, 1, 1⟩,
          RTree.leaf 2 ⟨2, 2, 3, 3⟩])))) :=
  ⟨monotone_id,
   (serialize_roundtrip id monotone_id
      [⟨1, ⟨0, 0, 1, 1⟩, ['a']⟩, ⟨2, ⟨2, 2, 3, 3⟩, ['b']⟩]
      (RTree.internal 0 ⟨0, 0, 3, 3⟩ true
        (RTreeList.ofList [RTree.leaf 1 ⟨0, 0, 1, 1⟩,
          RTree.leaf 2 ⟨2, 2, 3, 3⟩]))
      [⟨0, 0, [(1, ⟨0, 0, 1, 1⟩), (2, ⟨2, 2, 3, 3⟩)]⟩] rfl).1⟩

end RV
